import Mathlib

/-!
Verification development for the spatial-index core of the repository:
the `AABB` / `Ray` geometry primitives and the arena-based `Octree`
(`src/physics/aabb.rs`, `src/physics/ray.rs`, `src/physics/octree.rs`).

Scalars are modelled as rationals (`ℚ`).  The source uses `f32`; the
algorithms under study are pure order/field arithmetic, which `ℚ` models
exactly, except for two IEEE-754 artefacts that `ℚ` cannot represent:
`±∞` and `NaN`.  Infinities enter only through `Vec3::recip` on a zero
direction component and through the `f32::INFINITY` /
`f32::NEG_INFINITY` seeds of the slab test and of `raycast`.  The seeds
are modelled faithfully by the extended-rational type `XQ` below; rays
with a zero direction component (whose reciprocal would be `±∞` and can
produce `NaN` products) are outside the model, and every ray theorem
carries the corresponding nonzero-direction hypothesis.
-/

/- Batteries marks the `Rat` field operations `@[irreducible]`, which
blocks `decide` on concrete rational computations; restore the default
reducibility locally so concrete runs of the model can be evaluated. -/
set_option allowUnsafeReducibility true
attribute [local semireducible] Rat.add Rat.sub Rat.neg Rat.mul Rat.div Rat.inv

/-- Index of an axis-aligned vector component, used only in specifications. -/
inductive Axis : Type
  | x
  | y
  | z
deriving DecidableEq, Repr

/-- `bevy::math::Vec3`, with rational components in place of `f32`. -/
structure V3 : Type where
  x : ℚ
  y : ℚ
  z : ℚ
deriving DecidableEq, Repr

namespace V3

/-- Component lookup by axis (specification helper). -/
def comp (v : V3) : Axis → ℚ
  | .x => v.x
  | .y => v.y
  | .z => v.z

/-- Componentwise addition. -/
def add (a b : V3) : V3 := ⟨a.x + b.x, a.y + b.y, a.z + b.z⟩

/-- Componentwise subtraction. -/
def sub (a b : V3) : V3 := ⟨a.x - b.x, a.y - b.y, a.z - b.z⟩

/-- Scale by a rational. -/
def smul (q : ℚ) (a : V3) : V3 := ⟨q * a.x, q * a.y, q * a.z⟩

/-- Componentwise product (`Vec3 * Vec3`). -/
def mulV (a b : V3) : V3 := ⟨a.x * b.x, a.y * b.y, a.z * b.z⟩

/-- Componentwise minimum. -/
def minV (a b : V3) : V3 := ⟨min a.x b.x, min a.y b.y, min a.z b.z⟩

/-- Componentwise maximum. -/
def maxV (a b : V3) : V3 := ⟨max a.x b.x, max a.y b.y, max a.z b.z⟩

/-- Componentwise absolute value (`Vec3::abs`). -/
def absV (a : V3) : V3 := ⟨|a.x|, |a.y|, |a.z|⟩

/-- `Vec3::recip`, componentwise `1/x`.  In `f32`, `recip` of `0.0` is
`+∞`; in `ℚ` the value `1/0 = 0` is junk, so every theorem about rays
assumes all direction components are nonzero. -/
def recipV (a : V3) : V3 := ⟨1 / a.x, 1 / a.y, 1 / a.z⟩

/-- `a.cmpgt(b).any()`: some component of `a` is strictly greater. -/
def cmpgtAny (a b : V3) : Bool :=
  decide (a.x > b.x) || decide (a.y > b.y) || decide (a.z > b.z)

/-- Componentwise `≤` (specification helper). -/
def vle (a b : V3) : Prop := a.x ≤ b.x ∧ a.y ≤ b.y ∧ a.z ≤ b.z

instance (a b : V3) : Decidable (vle a b) := by
  unfold vle; infer_instance

end V3

/-- `bevy::math::BVec3` as used for octant signs: one sign bit per axis,
`true` = positive side. -/
structure Oct : Type where
  x : Bool
  y : Bool
  z : Bool
deriving DecidableEq, Repr

/-- Extended rationals: `ℚ` together with `−∞` and `+∞`.  This models the
`f32` values that actually occur in the slab test and in `raycast`
(finite numbers and the two infinite seeds); `NaN` has no counterpart
and is unreachable for rays with nonzero direction components. -/
inductive XQ : Type
  | negInf : XQ
  | fin (q : ℚ) : XQ
  | posInf : XQ
deriving DecidableEq, Repr

namespace XQ

/-- Order on extended rationals, matching `f32` comparisons on non-`NaN`
values. -/
def le : XQ → XQ → Prop
  | negInf, _ => True
  | _, posInf => True
  | fin a, fin b => a ≤ b
  | posInf, negInf => False
  | posInf, fin _ => False
  | fin _, negInf => False

instance (a b : XQ) : Decidable (le a b) := by
  cases a <;> cases b <;> simp only [le] <;> infer_instance

/-- Strict order on extended rationals. -/
def lt (a b : XQ) : Prop := ¬ le b a

instance (a b : XQ) : Decidable (lt a b) := by
  unfold lt; infer_instance

/-- `f32::min` on non-`NaN` values. -/
def xmin (a b : XQ) : XQ := if le a b then a else b

/-- `f32::max` on non-`NaN` values. -/
def xmax (a b : XQ) : XQ := if le a b then b else a

/-- Truncation to `ℚ`, used where the source stores an `f32` that is
finite in every run the theorems talk about; both infinities are mapped
to the junk value `0` (reachable only with zero direction components,
which the theorems exclude). -/
def toQ : XQ → ℚ
  | negInf => 0
  | fin q => q
  | posInf => 0

end XQ

/-- `f32::EPSILON` (`2^-23`), exact. -/
def f32Eps : ℚ := 1 / 8388608

/-- `AABB` from `src/physics/aabb.rs`: a box given by its two corners.
The Rust constructor `AABB::new` aborts unless `min < max` on every axis
and no component is `NaN`; that precondition is the predicate
`AABB.valid` below, and theorems assume it where they need it. -/
structure AABB : Type where
  min : V3
  max : V3
deriving DecidableEq, Repr

namespace AABB

/-- The `AABB::new` precondition: `min` strictly below `max` on every
axis (`min.cmpge(max).any()` aborts). -/
def valid (a : AABB) : Prop :=
  a.min.x < a.max.x ∧ a.min.y < a.max.y ∧ a.min.z < a.max.z

instance (a : AABB) : Decidable (valid a) := by
  unfold valid; infer_instance

/-- `AABB::length`. -/
def length (a : AABB) : V3 := a.max.sub a.min

/-- `AABB::center`. -/
def center (a : AABB) : V3 := (a.min.add a.max).smul (1/2)

/-- `AABB::center_x`. -/
def center_x (a : AABB) : ℚ := (a.min.x + a.max.x) * (1/2)

/-- `AABB::center_y`. -/
def center_y (a : AABB) : ℚ := (a.min.y + a.max.y) * (1/2)

/-- `AABB::center_z`. -/
def center_z (a : AABB) : ℚ := (a.min.z + a.max.z) * (1/2)

/-- `impl Sub<Vec3> for AABB`: translate both corners. -/
def subV (a : AABB) (v : V3) : AABB := ⟨a.min.sub v, a.max.sub v⟩

/-- `AABB::octant`: classify the box against the origin, per axis either
strictly positive (`min ≥ 0 ∧ max > 0`) or strictly negative
(`min < 0 ∧ max ≤ 0`); `none` if any axis straddles. -/
def octant (a : AABB) : Option Oct :=
  let xP : Bool := decide (0 ≤ a.min.x) && decide (0 < a.max.x)
  let xN : Bool := decide (a.min.x < 0) && decide (a.max.x ≤ 0)
  let yP : Bool := decide (0 ≤ a.min.y) && decide (0 < a.max.y)
  let yN : Bool := decide (a.min.y < 0) && decide (a.max.y ≤ 0)
  let zP : Bool := decide (0 ≤ a.min.z) && decide (0 < a.max.z)
  let zN : Bool := decide (a.min.z < 0) && decide (a.max.z ≤ 0)
  if (xor xP xN) && (xor yP yN) && (xor zP zN) then
    some ⟨xP, yP, zP⟩
  else
    none

/-- `AABB::get_octant`: the sub-box in the requested octant, split at the
center. -/
def get_octant (a : AABB) (o : Oct) : AABB :=
  let mnx := if o.x then a.center_x else a.min.x
  let mxx := if o.x then a.max.x else a.center_x
  let mny := if o.y then a.center_y else a.min.y
  let mxy := if o.y then a.max.y else a.center_y
  let mnz := if o.z then a.center_z else a.min.z
  let mxz := if o.z then a.max.z else a.center_z
  ⟨⟨mnx, mny, mnz⟩, ⟨mxx, mxy, mxz⟩⟩

/-- One per-axis comparison of `AABB::is_on_octant`, with the
`f32::EPSILON` dead zone around the center plane. -/
def onOctant1 (p c : ℚ) : Ordering :=
  if |p - c| ≤ f32Eps then Ordering.eq
  else if p < c then Ordering.lt
  else Ordering.gt

/-- `AABB::is_on_octant`: classify a point against the box center. -/
def is_on_octant (a : AABB) (p : V3) : Ordering × Ordering × Ordering :=
  let c := a.center
  (onOctant1 p.x c.x, onOctant1 p.y c.y, onOctant1 p.z c.z)

/-- `AABB::_intersects`: strict overlap test. -/
def intersectsB (a b : AABB) : Bool :=
  decide (a.min.x < b.max.x) && decide (a.min.y < b.max.y) &&
  decide (a.min.z < b.max.z) && decide (a.max.x > b.min.x) &&
  decide (a.max.y > b.min.y) && decide (a.max.z > b.min.z)

end AABB

/-- `Ray` from `src/physics/ray.rs`.  `recip_dir` is cached at
construction (`Ray::new`); concrete rays in this file are always built
with `Ray.new` so the cache is coherent. -/
structure Ray : Type where
  origin : V3
  dir : V3
  recip_dir : V3
deriving DecidableEq, Repr

namespace Ray

/-- `Ray::new`: precompute the reciprocal direction. -/
def new (origin dir : V3) : Ray := ⟨origin, dir, dir.recipV⟩

/-- `Ray::point`. -/
def point (r : Ray) (t : ℚ) : V3 := r.origin.add (r.dir.smul t)

/-- `Ray::t`: per-axis slab parameters `(v - origin) * recip_dir`. -/
def tOf (r : Ray) (v : V3) : V3 := (v.sub r.origin).mulV r.recip_dir

/-- A ray whose direction has no zero component; under this hypothesis
the `ℚ` model agrees with `f32` (no `±∞`/`NaN` is ever produced). -/
def goodDir (r : Ray) : Prop := r.dir.x ≠ 0 ∧ r.dir.y ≠ 0 ∧ r.dir.z ≠ 0

instance (r : Ray) : Decidable (goodDir r) := by
  unfold goodDir; infer_instance

end Ray

namespace AABB

/-- `AABB::intersects_ray_raw`: the slab test exactly as written in the
source.  The accumulators start at `f32::NEG_INFINITY` / `f32::INFINITY`
(here `XQ.negInf` / `XQ.posInf`), and the `for i in 0..3` loop is
unrolled into the three axis steps; each step clamps the incoming entry
with the current `t_max` and the incoming exit with the updated
`t_min`, as the source does. -/
def intersects_ray_raw (a : AABB) (r : Ray) : Option (XQ × XQ) :=
  let dMin := r.tOf a.min
  let dMax := r.tOf a.max
  let t0 : XQ := XQ.negInf
  let u0 : XQ := XQ.posInf
  let t1 := XQ.xmax t0 (XQ.xmin (XQ.xmin (XQ.fin dMin.x) (XQ.fin dMax.x)) u0)
  let u1 := XQ.xmin u0 (XQ.xmax (XQ.xmax (XQ.fin dMin.x) (XQ.fin dMax.x)) t1)
  let t2 := XQ.xmax t1 (XQ.xmin (XQ.xmin (XQ.fin dMin.y) (XQ.fin dMax.y)) u1)
  let u2 := XQ.xmin u1 (XQ.xmax (XQ.xmax (XQ.fin dMin.y) (XQ.fin dMax.y)) t2)
  let t3 := XQ.xmax t2 (XQ.xmin (XQ.xmin (XQ.fin dMin.z) (XQ.fin dMax.z)) u2)
  let u3 := XQ.xmin u2 (XQ.xmax (XQ.xmax (XQ.fin dMin.z) (XQ.fin dMax.z)) t3)
  if XQ.le u3 (XQ.fin 0) ∨ XQ.le u3 t3 then none else some (t3, u3)

/-- `AABB::intersects_ray`: near distance, or far distance when the
origin is inside the box. -/
def intersects_ray (a : AABB) (r : Ray) : Option XQ :=
  (a.intersects_ray_raw r).map
    (fun p => if XQ.le p.1 (XQ.fin 0) then p.2 else p.1)

end AABB

namespace Ray

/-- `Ray::octant_at`: octant of the ray position at parameter `pivot`
inside `aabb`, with on-plane ties broken by the direction sign; `none`
when an axis is on-plane with zero direction. -/
def octant_at (r : Ray) (pivot : ℚ) (aabb : AABB) : Option Oct :=
  let p := aabb.is_on_octant (r.origin.add (r.dir.smul pivot))
  let ox := p.1
  let oy := p.2.1
  let oz := p.2.2
  let ox := if ox = Ordering.eq ∧ r.dir.x ≠ 0 then
      (if r.dir.x > 0 then Ordering.gt
       else if r.dir.x < 0 then Ordering.lt else ox)
    else ox
  let oy := if oy = Ordering.eq ∧ r.dir.y ≠ 0 then
      (if r.dir.y > 0 then Ordering.gt
       else if r.dir.y < 0 then Ordering.lt else oy)
    else oy
  let oz := if oz = Ordering.eq ∧ r.dir.z ≠ 0 then
      (if r.dir.z > 0 then Ordering.gt
       else if r.dir.z < 0 then Ordering.lt else oz)
    else oz
  if ox = Ordering.eq ∨ oy = Ordering.eq ∨ oz = Ordering.eq then none
  else some ⟨ox = Ordering.gt, oy = Ordering.gt, oz = Ordering.gt⟩

/-- The nested comparison tree of `Ray::next_octant` that marks the
axis (or axes, on ties) whose entry of `ca` is greatest. -/
def dominantAxes (ca : V3) : Oct :=
  if ca.x > ca.y then
    (if ca.x > ca.z then ⟨true, false, false⟩
     else if ca.z > ca.x then ⟨false, false, true⟩
     else ⟨true, false, true⟩)
  else if ca.y > ca.x then
    (if ca.y > ca.z then ⟨false, true, false⟩
     else if ca.z > ca.y then ⟨false, false, true⟩
     else ⟨false, true, true⟩)
  else
    (if ca.x > ca.z then ⟨true, true, false⟩
     else if ca.z > ca.x then ⟨false, false, true⟩
     else ⟨true, true, true⟩)

/-- `Ray::next_octant`: for every axis marked by `dominantAxes` the
octant bit is set to the sign of the offset component; other bits are
kept. -/
def next_octant (r : Ray) (octant : Oct) (pivot : ℚ) (bound : AABB) : Oct :=
  let check := (r.origin.add (r.dir.smul pivot)).sub (bound.get_octant octant).center
  let delta : Oct := dominantAxes check.absV
  let ox := if delta.x then decide (check.x > 0) else octant.x
  let oy := if delta.y then decide (check.y > 0) else octant.y
  let oz := if delta.z then decide (check.z > 0) else octant.z
  ⟨ox, oy, oz⟩

end Ray

namespace AABB

/-- One iteration of the first `extend_for` loop:
`self.min -= self.length()`. -/
def minStep (a : AABB) : AABB := ⟨a.min.sub a.length, a.max⟩

/-- One iteration of the second `extend_for` loop:
`self.max += self.length()`. -/
def maxStep (a : AABB) : AABB := ⟨a.min, a.max.add a.length⟩

/-- Guard of the first `extend_for` loop: some `min` component still too
large to cover `other`. -/
def cond1 (a other : AABB) : Bool :=
  decide (a.min.x > other.min.x) || decide (a.min.y > other.min.y) ||
  decide (a.min.z > other.min.z)

/-- Guard of the second `extend_for` loop: some `max` component still too
small to cover `other`. -/
def cond2 (a other : AABB) : Bool :=
  decide (a.max.x < other.max.x) || decide (a.max.y < other.max.y) ||
  decide (a.max.z < other.max.z)

/-- First `extend_for` loop, fuelled; returns the final box and the
trace of boxes passed to the callback `f`, one per iteration. -/
def extLoop1 (other : AABB) : ℕ → AABB → Option (AABB × List AABB)
  | 0, a => if cond1 a other then none else some (a, [])
  | fuel+1, a =>
    if cond1 a other then
      (extLoop1 other fuel (minStep a)).map (fun p => (p.1, minStep a :: p.2))
    else some (a, [])

/-- Second `extend_for` loop, fuelled. -/
def extLoop2 (other : AABB) : ℕ → AABB → Option (AABB × List AABB)
  | 0, a => if cond2 a other then none else some (a, [])
  | fuel+1, a =>
    if cond2 a other then
      (extLoop2 other fuel (maxStep a)).map (fun p => (p.1, maxStep a :: p.2))
    else some (a, [])

/-- `AABB::extend_for`, fuelled: both doubling loops in sequence.  The
result is the final grown box together with the list of boxes passed to
the callback, in call order; `none` means the fuel ran out (the Rust
loop would keep running). -/
def extend_for (fuel : ℕ) (a other : AABB) : Option (AABB × List AABB) :=
  match extLoop1 other fuel a with
  | none => none
  | some (a1, tr1) =>
    match extLoop2 other fuel a1 with
    | none => none
    | some (a2, tr2) => some (a2, tr1 ++ tr2)

/-- Modelled from the spec: `AABB::extend` is called by
`Octree::try_extend` when the tree is empty but is not present under
`src/`; per the spec the base bound is "simply set to cover the new
box", i.e. the componentwise hull of the two boxes. -/
def extendHull (a b : AABB) : AABB := ⟨a.min.minV b.min, a.max.maxV b.max⟩

/-- `a` covers `b`: componentwise `a.min ≤ b.min` and `b.max ≤ a.max`. -/
def covers (a b : AABB) : Prop := V3.vle a.min b.min ∧ V3.vle b.max a.max

instance (a b : AABB) : Decidable (covers a b) := by
  unfold covers; infer_instance

end AABB

/-!
## The octree (`src/physics/octree.rs`)

Entity handles (`bevy::Entity`) are modelled as naturals; the cached
`shape`/`rotation` payload of `OctreeEntity` is dropped because no octree
operation reads it (`Eq`/`Ord`/`Borrow` all go through `entity` alone).

Arena indices are naturals with the sentinel `usize::MAX`; the arena is a
`List` of nodes, and out-of-range accesses — which panic in Rust — are
modelled by the `panic` outcome of the `Res` result type.  The
`while`/`loop` constructs of the source are modelled with an explicit
fuel parameter; `fuelOut` marks fuel exhaustion and is distinct from
both normal returns and panics.

Two arithmetic details: `usize` decrements (`children_len -= 1`,
`len -= 1`) are modelled as panicking at zero, matching the debug
overflow semantics of the Rust build; `children[i] = v` / `children[i]`
on the fixed `[usize; 8]` array are modelled with `List.set` / `getD`
(out-of-range positions cannot occur on the paths the theorems cover).
-/

/-- `Octree::NULL_INDEX = usize::MAX`. -/
def NULL_INDEX : ℕ := 2 ^ 64 - 1

/-- Result of a fuelled, possibly panicking operation. -/
inductive Res (α : Type) : Type
  | ok (a : α) : Res α
  | panic : Res α
  | fuelOut : Res α
deriving DecidableEq, Repr

/-- `OctreeEntity`, reduced to the fields the octree consults. -/
structure OctreeEntity : Type where
  entity : ℕ
  aabb : AABB
deriving DecidableEq, Repr

/-- `BTreeSet<OctreeEntity>` as an ascending, duplicate-free list keyed
by `entity`.  `insert` keeps the existing element and reports `false` on
a key collision, exactly like `BTreeSet::insert` under the `Ord`
instance of `OctreeEntity` (which compares only `entity`). -/
def entsInsert (e : OctreeEntity) : List OctreeEntity → Bool × List OctreeEntity
  | [] => (true, [e])
  | a :: rest =>
    if e.entity < a.entity then (true, e :: a :: rest)
    else if e.entity = a.entity then (false, a :: rest)
    else
      let p := entsInsert e rest
      (p.1, a :: p.2)

/-- `BTreeSet::remove(&entity)` via the `Borrow<Entity>` key. -/
def entsRemove (h : ℕ) : List OctreeEntity → Bool × List OctreeEntity
  | [] => (false, [])
  | a :: rest =>
    if a.entity = h then (true, rest)
    else
      let p := entsRemove h rest
      (p.1, a :: p.2)

/-- Membership of a handle in a node's set. -/
def entsContains (l : List OctreeEntity) (h : ℕ) : Bool :=
  l.any (fun oe => decide (oe.entity = h))

/-- `OctreeNode`. -/
structure OctreeNode : Type where
  aabb : AABB
  entities : List OctreeEntity
  parent : ℕ
  children : List ℕ
  children_len : ℕ
deriving DecidableEq, Repr

namespace OctreeNode

/-- `OctreeNode::new`. -/
def new (aabb : AABB) (parent : ℕ) : OctreeNode :=
  ⟨aabb, [], parent, List.replicate 8 NULL_INDEX, 0⟩

/-- `OctreeNode::octant_to_index`: `4x + 2y + z`. -/
def octant_to_index (o : Oct) : ℕ :=
  4 * o.x.toNat + 2 * o.y.toNat + o.z.toNat

/-- `OctreeNode::get_child_index`. -/
def get_child_index (nd : OctreeNode) (o : Oct) : ℕ :=
  nd.children.getD (octant_to_index o) NULL_INDEX

/-- Child slot lookup by raw position. -/
def childAt (nd : OctreeNode) (j : ℕ) : ℕ := nd.children.getD j NULL_INDEX

end OctreeNode

/-- `Octree`.  The Rust struct also carries a capacity hint inside its
`Vec`, which has no observable effect and is not modelled. -/
structure Octree : Type where
  root : ℕ
  base_aabb : AABB
  nodes : List OctreeNode
  min_leaf_extent : V3
  idle : ℕ
  len : ℕ
deriving DecidableEq, Repr

namespace Octree

/-- `Octree::new` (the `capacity` argument only pre-allocates). -/
def new (min_leaf_extent : V3) (aabb : AABB) : Octree :=
  ⟨NULL_INDEX, aabb, [], min_leaf_extent, NULL_INDEX, 0⟩

/-- `Octree::get_or_create_node`: recycle the idle-list head or push a
fresh node; returns the slot index and the updated tree. -/
def get_or_create_node (t : Octree) (aabb : AABB) (parent : ℕ) :
    Res (ℕ × Octree) :=
  if t.idle = NULL_INDEX then
    Res.ok (t.nodes.length,
      { t with nodes := t.nodes ++ [OctreeNode.new aabb parent] })
  else
    match t.nodes.get? t.idle with
    | none => Res.panic
    | some nd =>
      Res.ok (t.idle,
        { t with
            idle := nd.parent,
            nodes := t.nodes.set t.idle { nd with aabb := aabb, parent := parent } })

/-- `Octree::idles_node`: unlink an empty node from its parent (or clear
the root) and push it on the idle list. -/
def idles_node (t : Octree) (index octant_index : ℕ) : Res Octree :=
  match t.nodes.get? index with
  | none => Res.panic
  | some nd =>
    if nd.parent ≠ NULL_INDEX then
      match t.nodes.get? nd.parent with
      | none => Res.panic
      | some p =>
        if p.children_len = 0 then Res.panic
        else
          let nodes1 := t.nodes.set nd.parent
            { p with
                children := p.children.set octant_index NULL_INDEX,
                children_len := p.children_len - 1 }
          match nodes1.get? index with
          | none => Res.panic
          | some nd1 =>
            Res.ok { t with
              nodes := nodes1.set index { nd1 with parent := t.idle },
              idle := index }
    else
      Res.ok { t with
        root := NULL_INDEX,
        nodes := t.nodes.set index { nd with parent := t.idle },
        idle := index }

/-- One step of the `try_extend` callback: allocate a node for the grown
bound `cur`, hang the old root under it, and re-root. -/
def extendStep (t : Octree) (cur : AABB) : Res Octree :=
  match get_or_create_node t cur NULL_INDEX with
  | Res.panic => Res.panic
  | Res.fuelOut => Res.fuelOut
  | Res.ok (index, t1) =>
    match t1.nodes.get? t1.root with
    | none => Res.panic
    | some rootNd =>
      match t1.nodes.get? index with
      | none => Res.panic
      | some newNd =>
        match (rootNd.aabb.subV newNd.aabb.center).octant with
        | none => Res.panic
        | some o =>
          let nodes1 := t1.nodes.set t1.root { rootNd with parent := index }
          match nodes1.get? index with
          | none => Res.panic
          | some p =>
            let p1 := { p with
              children_len := p.children_len + 1,
              children := p.children.set (OctreeNode.octant_to_index o) t1.root }
            Res.ok { t1 with
              nodes := nodes1.set index p1,
              base_aabb := cur,
              root := index }

/-- Fold the `try_extend` callback over a trace of grown bounds. -/
def extendFold (t : Octree) : List AABB → Res Octree
  | [] => Res.ok t
  | cur :: rest =>
    match extendStep t cur with
    | Res.panic => Res.panic
    | Res.fuelOut => Res.fuelOut
    | Res.ok t1 => extendFold t1 rest

/-- `Octree::try_extend`.  With a live root this is
`base_aabb.extend_for(aabb, closure)`: the loop guard of `extend_for`
depends only on its own box copy, so the callback sequence equals the
trace of `AABB.extend_for`, and the octree effect is the fold of the
callback over that trace.  With no root, the base is set to
`base_aabb.extend(aabb)` (see `AABB.extendHull`). -/
def try_extend (fuel : ℕ) (t : Octree) (aabb : AABB) : Res Octree :=
  if t.root = NULL_INDEX then
    Res.ok { t with base_aabb := t.base_aabb.extendHull aabb }
  else
    match AABB.extend_for fuel t.base_aabb aabb with
    | none => Res.fuelOut
    | some (_, trace) => extendFold t trace

/-- The descent loop of `Octree::insert`.  One fuel unit per loop
iteration; an iteration may first materialise the missing node for
`node_aabb` (or stop in the parent when the leaf would be too small) and
then classifies the entity against the current node. -/
def insertLoop (e : OctreeEntity) :
    ℕ → Octree → ℕ → ℕ → ℕ → AABB → Res (Bool × Octree)
  | 0, _, _, _, _, _ => Res.fuelOut
  | fuel+1, t, index, parent_index, octant_index, node_aabb =>
    let resolved : Res (ℕ × Octree) :=
      if index = NULL_INDEX then
        if V3.cmpgtAny t.min_leaf_extent node_aabb.length then
          Res.panic  -- placeholder, never read: handled below before use
        else
          match get_or_create_node t node_aabb parent_index with
          | Res.panic => Res.panic
          | Res.fuelOut => Res.fuelOut
          | Res.ok (idx, t1) =>
            if parent_index = NULL_INDEX then
              Res.ok (idx, { t1 with root := idx })
            else
              match t1.nodes.get? parent_index with
              | none => Res.panic
              | some p =>
                let p1 := { p with
                  children_len := p.children_len + 1,
                  children := p.children.set octant_index idx }
                Res.ok (idx, { t1 with nodes := t1.nodes.set parent_index p1 })
      else Res.ok (index, t)
    if index = NULL_INDEX ∧ V3.cmpgtAny t.min_leaf_extent node_aabb.length then
      -- Leaf would be too small: insert into the parent node's set.
      match t.nodes.get? parent_index with
      | none => Res.panic
      | some pnd =>
        let p := entsInsert e pnd.entities
        let pnd1 := { pnd with entities := p.2 }
        Res.ok (p.1, { t with nodes := t.nodes.set parent_index pnd1 })
    else
      match resolved with
      | Res.panic => Res.panic
      | Res.fuelOut => Res.fuelOut
      | Res.ok (idx, t1) =>
        match t1.nodes.get? idx with
        | none => Res.panic
        | some nd =>
          match (e.aabb.subV nd.aabb.center).octant with
          | some o =>
            insertLoop e fuel t1 (nd.childAt (OctreeNode.octant_to_index o))
              idx (OctreeNode.octant_to_index o) (nd.aabb.get_octant o)
          | none =>
            let p := entsInsert e nd.entities
            let nd1 := { nd with entities := p.2 }
            Res.ok (p.1, { t1 with nodes := t1.nodes.set idx nd1 })

/-- `Octree::insert`: extend the base bound, run the descent loop, and
bump `len` on success. -/
def insert (fuel : ℕ) (t : Octree) (e : OctreeEntity) : Res (Bool × Octree) :=
  match try_extend fuel t e.aabb with
  | Res.panic => Res.panic
  | Res.fuelOut => Res.fuelOut
  | Res.ok t1 =>
    match insertLoop e fuel t1 t1.root NULL_INDEX NULL_INDEX t1.base_aabb with
    | Res.panic => Res.panic
    | Res.fuelOut => Res.fuelOut
    | Res.ok (r, t2) =>
      Res.ok (r, if r then { t2 with len := t2.len + 1 } else t2)

/-- The descent loop of `Octree::remove`. -/
def removeLoop (entity : ℕ) (aabb : AABB) :
    ℕ → Octree → ℕ → ℕ → Res (Bool × Octree)
  | 0, _, _, _ => Res.fuelOut
  | fuel+1, t, index, octant_index =>
    if index = NULL_INDEX then Res.ok (false, t)
    else
      match t.nodes.get? index with
      | none => Res.panic
      | some nd =>
        if nd.children_len = 0 then
          let p := entsRemove entity nd.entities
          let nd1 := { nd with entities := p.2 }
          let t1 := { t with nodes := t.nodes.set index nd1 }
          if p.2 = [] then
            match idles_node t1 index octant_index with
            | Res.panic => Res.panic
            | Res.fuelOut => Res.fuelOut
            | Res.ok t2 => Res.ok (p.1, t2)
          else Res.ok (p.1, t1)
        else
          match (aabb.subV nd.aabb.center).octant with
          | some o =>
            removeLoop entity aabb fuel t
              (nd.childAt (OctreeNode.octant_to_index o))
              (OctreeNode.octant_to_index o)
          | none =>
            let p := entsRemove entity nd.entities
            let nd1 := { nd with entities := p.2 }
            Res.ok (p.1, { t with nodes := t.nodes.set index nd1 })

/-- `Octree::remove`: run the descent loop from the root and decrement
`len` on success. -/
def remove (fuel : ℕ) (t : Octree) (entity : ℕ) (aabb : AABB) :
    Res (Bool × Octree) :=
  match removeLoop entity aabb fuel t t.root NULL_INDEX with
  | Res.panic => Res.panic
  | Res.fuelOut => Res.fuelOut
  | Res.ok (r, t1) =>
    if r then
      if t1.len = 0 then Res.panic
      else Res.ok (r, { t1 with len := t1.len - 1 })
    else Res.ok (r, t1)

end Octree

/-!
## Raycast and intersect traversals

`Octree::raycast_inner` recurses into children while also looping
octant-to-octant inside one node; the two are mutually recursive, so the
model uses one fuelled function over an explicit call state: `visit i`
performs the body of `raycast_inner` on node `i`, `walk` performs the
inner octant loop.  The tree is read-only throughout, so only the
`(result, len, pivot)` triple is threaded.  `len` is the running best
distance, seeded with `f32::INFINITY`; `pivot` is an `f32` that stays
finite for rays with nonzero direction components (hence modelled in `ℚ`
via `XQ.toQ`).
-/

namespace Octree

/-- Call states of the `raycast_inner` model. -/
inductive RcCall : Type
  | visit (index : ℕ) (len : XQ) (pivot : ℚ) : RcCall
  | walk (index : ℕ) (octant : Oct) (tmax : XQ) (ret : Option (ℕ × AABB))
      (len : XQ) (pivot : ℚ) : RcCall

/-- Fold of the per-entity candidate test of `raycast_inner` over a
node's entity list, in ascending-key (iteration) order. -/
def rcEnts (r : Ray) : List OctreeEntity → Option (ℕ × AABB) → XQ →
    Option (ℕ × AABB) × XQ
  | [], ret, len => (ret, len)
  | oe :: rest, ret, len =>
    match oe.aabb.intersects_ray r with
    | some candidate =>
      if XQ.lt candidate len then rcEnts r rest (some (oe.entity, oe.aabb)) candidate
      else rcEnts r rest ret len
    | none => rcEnts r rest ret len

/-- `Octree::raycast_inner`, fuelled over the call state. -/
def rcGo (r : Ray) (t : Octree) :
    ℕ → RcCall → Res (Option (ℕ × AABB) × XQ × ℚ)
  | 0, _ => Res.fuelOut
  | fuel+1, RcCall.visit index len pivot =>
    if index = NULL_INDEX then Res.ok (none, len, pivot)
    else
      match t.nodes.get? index with
      | none => Res.panic
      | some nd =>
        match nd.aabb.intersects_ray_raw r with
        | none => Res.ok (none, len, pivot)
        | some (_, tmax) =>
          let p := rcEnts r nd.entities none len
          if nd.children_len ≠ 0 then
            match r.octant_at pivot nd.aabb with
            | some o =>
              match rcGo r t fuel (RcCall.walk index o tmax p.1 p.2 pivot) with
              | Res.panic => Res.panic
              | Res.fuelOut => Res.fuelOut
              | Res.ok (ret1, len1, _) => Res.ok (ret1, len1, XQ.toQ tmax)
            | none => Res.ok (p.1, p.2, XQ.toQ tmax)
          else Res.ok (p.1, p.2, XQ.toQ tmax)
  | fuel+1, RcCall.walk index octant tmax ret len pivot =>
    match t.nodes.get? index with
    | none => Res.panic
    | some nd =>
      let child := nd.get_child_index octant
      if child = NULL_INDEX then
        let pivot1 := match (nd.aabb.get_octant octant).intersects_ray_raw r with
          | some q => XQ.toQ q.2
          | none => XQ.toQ tmax
        let octant1 := r.next_octant octant pivot1 nd.aabb
        if octant1 = octant then Res.ok (ret, len, pivot1)
        else rcGo r t fuel (RcCall.walk index octant1 tmax ret len pivot1)
      else
        match rcGo r t fuel (RcCall.visit child len pivot) with
        | Res.panic => Res.panic
        | Res.fuelOut => Res.fuelOut
        | Res.ok (res, len1, pivot1) =>
          match res with
          | some q => Res.ok (some q, len1, pivot1)
          | none =>
            let octant1 := r.next_octant octant pivot1 nd.aabb
            if octant1 = octant then Res.ok (ret, len1, pivot1)
            else rcGo r t fuel (RcCall.walk index octant1 tmax ret len1 pivot1)

/-- `RayHitInfo`. -/
structure RayHitInfo : Type where
  entity : ℕ
  aabb : AABB
  t : XQ
deriving DecidableEq, Repr

/-- `Octree::raycast`: seed `len = f32::INFINITY`, `pivot = 0`. -/
def raycast (fuel : ℕ) (t : Octree) (r : Ray) : Res (Option RayHitInfo) :=
  match rcGo r t fuel (RcCall.visit t.root XQ.posInf 0) with
  | Res.panic => Res.panic
  | Res.fuelOut => Res.fuelOut
  | Res.ok (res, len, _) =>
    Res.ok (res.map (fun q => ⟨q.1, q.2, len⟩))

/-- Call states of the `_intersect` model: `node` is the main descent
loop, `kids j` is position `j` of the `_intersect_children` scan. -/
inductive ItCall : Type
  | node (index : ℕ) : ItCall
  | kids (index : ℕ) (j : ℕ) : ItCall

/-- The entity handles of a node whose boxes strictly overlap `q`, in
iteration order. -/
def itHits (q : AABB) (nd : OctreeNode) : List ℕ :=
  (nd.entities.filter (fun oe => AABB.intersectsB oe.aabb q)).map
    (fun oe => oe.entity)

/-- `Octree::_intersect` / `_intersect_children`, fuelled, accumulating
the visited entities instead of invoking a callback.  Fuel exhaustion
(or an out-of-range index, which would panic in Rust) returns the
entities collected so far. -/
def itGo (q : AABB) (t : Octree) : ℕ → ItCall → List ℕ → List ℕ
  | 0, _, acc => acc
  | fuel+1, ItCall.node index, acc =>
    if index = NULL_INDEX then acc
    else
      match t.nodes.get? index with
      | none => acc
      | some nd =>
        let acc1 := acc ++ itHits q nd
        match (q.subV nd.aabb.center).octant with
        | some o => itGo q t fuel (ItCall.node (nd.get_child_index o)) acc1
        | none => itGo q t fuel (ItCall.kids index 0) acc1
  | fuel+1, ItCall.kids index j, acc =>
    if j ≥ 8 then acc
    else
      match t.nodes.get? index with
      | none => acc
      | some nd =>
        let c := nd.childAt j
        if c = NULL_INDEX then itGo q t fuel (ItCall.kids index (j+1)) acc
        else
          match t.nodes.get? c with
          | none => acc
          | some ch =>
            if AABB.intersectsB ch.aabb q then
              let acc1 := acc ++ itHits q ch
              let acc2 := itGo q t fuel (ItCall.kids c 0) acc1
              itGo q t fuel (ItCall.kids index (j+1)) acc2
            else itGo q t fuel (ItCall.kids index (j+1)) acc

/-- `Octree::_intersect` from the root. -/
def intersect (fuel : ℕ) (t : Octree) (q : AABB) : List ℕ :=
  itGo q t fuel (ItCall.node t.root) []

end Octree


/-!
## Specification-side definitions

These definitions follow the spec's wording (not the source) and exist
only to be compared with the source-derived definitions above.
-/

/-- Spec wording of claim C9 for `next_octant`: the sign bit of every
axis whose absolute offset is largest is *flipped*; other axes keep
their bits. -/
def specFlipNextOct (r : Ray) (octant : Oct) (pivot : ℚ) (bound : AABB) : Oct :=
  let check := (r.origin.add (r.dir.smul pivot)).sub (bound.get_octant octant).center
  let ca := check.absV
  ⟨if ca.y ≤ ca.x ∧ ca.z ≤ ca.x then !octant.x else octant.x,
   if ca.x ≤ ca.y ∧ ca.z ≤ ca.y then !octant.y else octant.y,
   if ca.x ≤ ca.z ∧ ca.y ≤ ca.z then !octant.z else octant.z⟩

/-- Corrected spec for `next_octant`: the sign bit of every axis whose
absolute offset is largest is *set to the sign of that offset*
(`true` iff strictly positive); other axes keep their bits. -/
def specNextOct (r : Ray) (octant : Oct) (pivot : ℚ) (bound : AABB) : Oct :=
  let check := (r.origin.add (r.dir.smul pivot)).sub (bound.get_octant octant).center
  let ca := check.absV
  ⟨if ca.y ≤ ca.x ∧ ca.z ≤ ca.x then decide (check.x > 0) else octant.x,
   if ca.x ≤ ca.y ∧ ca.z ≤ ca.y then decide (check.y > 0) else octant.y,
   if ca.x ≤ ca.z ∧ ca.y ≤ ca.z then decide (check.z > 0) else octant.z⟩

/-- The nested comparison tree marks exactly the axes whose absolute
offset is (jointly) greatest. -/
theorem dominantAxes_eq (v : V3) :
    Ray.dominantAxes v =
      ⟨decide (v.y ≤ v.x ∧ v.z ≤ v.x),
       decide (v.x ≤ v.y ∧ v.z ≤ v.y),
       decide (v.x ≤ v.z ∧ v.y ≤ v.z)⟩ := by
  unfold Ray.dominantAxes
  split_ifs with h1 h2 h3 h4 h5 h6 h7 h8
  all_goals (refine Oct.mk.injEq .. |>.mpr ⟨?_, ?_, ?_⟩)
  all_goals first
    | exact (decide_eq_true (by constructor <;> linarith)).symm
    | exact (decide_eq_false (by rintro ⟨u, w⟩; linarith)).symm

/-- C9 (amended): for every ray, octant, pivot and box, `next_octant`
computes the offset from the current sub-box center to the ray position
at `pivot` and, on exactly the axes of greatest absolute offset (all of
them on ties), *sets* the octant bit to the sign of that offset,
leaving the other bits unchanged. -/
theorem c9_next_octant_sets_dominant_axis (r : Ray) (o : Oct) (p : ℚ) (b : AABB) :
    r.next_octant o p b = specNextOct r o p b := by
  simp only [Ray.next_octant, specNextOct, dominantAxes_eq, decide_eq_true_eq]

/-- C9 counterexample: at a concrete input whose dominant-axis offset
sign already matches the octant bit, `next_octant` returns the octant
unchanged, while the claim's flip rule demands a changed bit. -/
theorem c9_counterexample :
    (Ray.new ⟨10, 2, 2⟩ ⟨1, 1/2, 1/4⟩).next_octant ⟨true, true, true⟩ 0
        (AABB.mk ⟨-4, -4, -4⟩ ⟨4, 4, 4⟩) = ⟨true, true, true⟩ ∧
    specFlipNextOct (Ray.new ⟨10, 2, 2⟩ ⟨1, 1/2, 1/4⟩) ⟨true, true, true⟩ 0
        (AABB.mk ⟨-4, -4, -4⟩ ⟨4, 4, 4⟩) ≠ ⟨true, true, true⟩ := by
  constructor <;> decide

/-- C10: on a tree with a NULL root whose base bound (after the
coverage extension of `try_extend`) is smaller than `min_leaf_extent` on
some axis, `insert` indexes the arena with the `usize::MAX` sentinel and
panics instead of returning a boolean.  The arena-size hypothesis holds
for every real `Vec` (`len() <= usize::MAX`). -/
theorem c10_insert_panics_small_base (t : Octree) (e : OctreeEntity) (fuel : ℕ)
    (harena : t.nodes.length < NULL_INDEX)
    (hroot : t.root = NULL_INDEX)
    (hsmall : V3.cmpgtAny t.min_leaf_extent
      ((t.base_aabb.extendHull e.aabb).length) = true) :
    Octree.insert (fuel+1) t e = Res.panic := by
  unfold Octree.insert Octree.try_extend
  rw [if_pos hroot]
  unfold Octree.insertLoop
  simp only [hroot, hsmall, if_pos, and_true, if_true, List.get?_eq_none.mpr (le_of_lt harena)]

/-- Witness for C10 at a concrete undersized tree. -/
theorem c10_witness :
    Octree.insert 5
      (Octree.new ⟨100, 100, 100⟩ ⟨⟨-1, -1, -1⟩, ⟨1, 1, 1⟩⟩)
      ⟨0, ⟨⟨0, 0, 0⟩, ⟨1, 1, 1⟩⟩⟩ = Res.panic :=
  c10_insert_panics_small_base
    (Octree.new ⟨100, 100, 100⟩ ⟨⟨-1, -1, -1⟩, ⟨1, 1, 1⟩⟩)
    ⟨0, ⟨⟨0, 0, 0⟩, ⟨1, 1, 1⟩⟩⟩ 4 (by decide) (by decide) (by decide)

/-!
## Claim C7: the slab test
-/

namespace XQ

theorem xmin_fin_fin (a b : ℚ) : xmin (fin a) (fin b) = fin (min a b) := by
  simp only [xmin, le, min_def]
  split_ifs <;> rfl

theorem xmax_fin_fin (a b : ℚ) : xmax (fin a) (fin b) = fin (max a b) := by
  simp only [xmax, le, max_def]
  split_ifs <;> rfl

theorem xmin_fin_posInf (a : ℚ) : xmin (fin a) posInf = fin a := rfl

theorem xmax_negInf_any (w : XQ) : xmax negInf w = w := by
  cases w <;> rfl

theorem xmin_posInf_any (w : XQ) : xmin posInf w = w := by
  cases w <;> rfl

theorem le_fin_fin (a b : ℚ) : le (fin a) (fin b) ↔ a ≤ b := Iff.rfl

end XQ

/-- If the plain slab interval is nonempty, the clamped accumulators of
the source agree with the plain running max/min. -/
theorem slab_hit (e1 x1 e2 x2 e3 x3 t2 u2 t3 u3 T X : ℚ)
    (ht2 : t2 = max e1 (min e2 x1)) (hu2 : u2 = min x1 (max x2 t2))
    (ht3 : t3 = max t2 (min e3 u2)) (hu3 : u3 = min u2 (max x3 t3))
    (hT : T = max (max e1 e2) e3) (hX : X = min (min x1 x2) x3)
    (hTX : T < X) : t3 = T ∧ u3 = X := by
  have he1T : e1 ≤ T := hT ▸ le_trans (le_max_left _ _) (le_max_left _ _)
  have he2T : e2 ≤ T := hT ▸ le_trans (le_max_right _ _) (le_max_left _ _)
  have he3T : e3 ≤ T := hT ▸ le_max_right _ _
  have hXx1 : X ≤ x1 := hX ▸ le_trans (min_le_left _ _) (min_le_left _ _)
  have hXx2 : X ≤ x2 := hX ▸ le_trans (min_le_left _ _) (min_le_right _ _)
  have hXx3 : X ≤ x3 := hX ▸ min_le_right _ _
  have h1 : min e2 x1 = e2 := min_eq_left (by linarith)
  have ht2q : t2 = max e1 e2 := by rw [ht2, h1]
  have h2 : max x2 t2 = x2 := max_eq_left (by
    have : t2 ≤ T := by rw [ht2q, hT]; exact le_max_left _ _
    linarith)
  have hu2q : u2 = min x1 x2 := by rw [hu2, h2]
  have hXu2 : X ≤ u2 := by rw [hu2q]; exact le_min hXx1 hXx2
  have h3 : min e3 u2 = e3 := min_eq_left (by linarith)
  have ht3q : t3 = T := by rw [ht3, h3, ht2q, hT]
  have h4 : max x3 t3 = x3 := max_eq_left (by rw [ht3q]; linarith)
  have hu3q : u3 = X := by rw [hu3, h4, hu2q, hX]
  exact ⟨ht3q, hu3q⟩

/-- If the clamped accumulators end strictly ordered, no clamp was ever
active, so they equal the plain running max/min. -/
theorem slab_strict (e1 x1 e2 x2 e3 x3 t2 u2 t3 u3 T X : ℚ)
    (h1 : e1 ≤ x1)
    (ht2 : t2 = max e1 (min e2 x1)) (hu2 : u2 = min x1 (max x2 t2))
    (ht3 : t3 = max t2 (min e3 u2)) (hu3 : u3 = min u2 (max x3 t3))
    (hT : T = max (max e1 e2) e3) (hX : X = min (min x1 x2) x3)
    (hlt : t3 < u3) : t3 = T ∧ u3 = X := by
  have hb1 : t2 ≤ x1 := by rw [ht2]; exact max_le h1 (min_le_right _ _)
  have hb2 : t2 ≤ u2 := by
    rw [hu2]; exact le_min hb1 (le_max_right _ _)
  have hb3 : t3 ≤ u2 := by rw [ht3]; exact max_le hb2 (min_le_right _ _)
  have ht23 : t2 ≤ t3 := ht3 ▸ le_max_left _ _
  have hu32 : u3 ≤ u2 := hu3 ▸ min_le_left _ _
  have h2u2 : t2 < u2 := lt_of_le_of_lt ht23 (lt_of_lt_of_le hlt hu32)
  -- step A: e2 ≤ x1
  have hA : e2 ≤ x1 := by
    by_contra hgt
    push_neg at hgt
    have hm : min e2 x1 = x1 := min_eq_right (le_of_lt hgt)
    have ht2e : t2 = x1 := by rw [ht2, hm, max_eq_right h1]
    have hu2e : u2 = x1 := by
      rw [hu2, ht2e]
      exact min_eq_left (le_max_right _ _)
    rw [ht2e, hu2e] at h2u2
    exact lt_irrefl _ h2u2
  have ht2q : t2 = max e1 e2 := by rw [ht2, min_eq_left hA]
  -- step B: t2 ≤ x2
  have hB : t2 ≤ x2 := by
    by_contra hgt
    push_neg at hgt
    have hm : max x2 t2 = t2 := max_eq_right (le_of_lt hgt)
    have hu2e : u2 = t2 := by rw [hu2, hm, min_eq_right hb1]
    rw [hu2e] at h2u2
    exact lt_irrefl _ h2u2
  have hu2q : u2 = min x1 x2 := by rw [hu2, max_eq_left hB]
  -- step C: e3 ≤ u2
  have hC : e3 ≤ u2 := by
    by_contra hgt
    push_neg at hgt
    have hm : min e3 u2 = u2 := min_eq_right (le_of_lt hgt)
    have ht3e : t3 = u2 := by rw [ht3, hm, max_eq_right hb2]
    exact absurd hlt (by rw [ht3e]; exact not_lt.mpr hu32)
  have ht3q : t3 = T := by rw [ht3, min_eq_left hC, ht2q, hT]
  -- step D: t3 ≤ x3
  have hD : t3 ≤ x3 := by
    by_contra hgt
    push_neg at hgt
    have hm : max x3 t3 = t3 := max_eq_right (le_of_lt hgt)
    have hu3e : u3 = t3 := by rw [hu3, hm, min_eq_right hb3]
    rw [hu3e] at hlt
    exact lt_irrefl _ hlt
  have hu3q : u3 = X := by rw [hu3, max_eq_left hD, hu2q, hX]
  exact ⟨ht3q, hu3q⟩

/-- The clamped conditional of the source equals the plain-slab
conditional of the spec. -/
theorem slab_aux (e1 x1 e2 x2 e3 x3 t2 u2 t3 u3 T X : ℚ)
    (h1 : e1 ≤ x1)
    (ht2 : t2 = max e1 (min e2 x1)) (hu2 : u2 = min x1 (max x2 t2))
    (ht3 : t3 = max t2 (min e3 u2)) (hu3 : u3 = min u2 (max x3 t3))
    (hT : T = max (max e1 e2) e3) (hX : X = min (min x1 x2) x3) :
    (if u3 ≤ 0 ∨ u3 ≤ t3 then (none : Option (ℚ × ℚ)) else some (t3, u3)) =
    (if X ≤ 0 ∨ X ≤ T then none else some (T, X)) := by
  by_cases hmain : X ≤ 0 ∨ X ≤ T
  · rw [if_pos hmain]
    by_cases hst : u3 ≤ t3
    · rw [if_pos (Or.inr hst)]
    · push_neg at hst
      obtain ⟨hTeq, hXeq⟩ :=
        slab_strict e1 x1 e2 x2 e3 x3 t2 u2 t3 u3 T X h1 ht2 hu2 ht3 hu3 hT hX hst
      rcases hmain with hX0 | hXT
      · exact if_pos (Or.inl (by rw [hXeq]; exact hX0))
      · exfalso
        rw [hTeq, hXeq] at hst
        exact absurd hst (not_lt.mpr hXT)
  · push_neg at hmain
    obtain ⟨hX0, hXT⟩ := hmain
    obtain ⟨hTeq, hXeq⟩ :=
      slab_hit e1 x1 e2 x2 e3 x3 t2 u2 t3 u3 T X ht2 hu2 ht3 hu3 hT hX hXT
    rw [if_neg, if_neg, hTeq, hXeq]
    · rintro (h | h)
      · exact absurd h (not_le.mpr hX0)
      · exact absurd h (not_le.mpr hXT)
    · rw [hTeq, hXeq]
      rintro (h | h)
      · exact absurd h (not_le.mpr hX0)
      · exact absurd h (not_le.mpr hXT)

/-- `max` of a pair and its `min` collapses to the `max`. -/
theorem max_max_min (a b : ℚ) : max (max a b) (min a b) = max a b :=
  max_eq_left min_le_max

/-- Spec-side slab test (claim C7): per-axis entry/exit parameters from
`(bound - origin) * inverse_direction`, a plain running max of entries
and min of exits, `none` exactly for `t_max <= 0` (box behind the ray)
or `t_min >= t_max` (miss). -/
def specSlab (a : AABB) (r : Ray) : Option (ℚ × ℚ) :=
  let dMin := r.tOf a.min
  let dMax := r.tOf a.max
  let tmin := max (max (min dMin.x dMax.x) (min dMin.y dMax.y)) (min dMin.z dMax.z)
  let tmax := min (min (max dMin.x dMax.x) (max dMin.y dMax.y)) (max dMin.z dMax.z)
  if tmax ≤ 0 ∨ tmin ≥ tmax then none else some (tmin, tmax)

/-- C7: for every box and every ray with nonzero direction components
(the scope in which the `ℚ` model coincides with `f32`),
`intersects_ray_raw` returns `none` exactly when the plain slab
parameters satisfy `t_max <= 0` or `t_min >= t_max`, and otherwise
returns exactly those parameters.  The hypothesis is not used by the
proof — the model-level identity is unconditional — but marks the
domain on which the model is faithful to the IEEE-754 source. -/
theorem c7_slab_test (a : AABB) (r : Ray) (hr : r.goodDir) :
    a.intersects_ray_raw r =
      (specSlab a r).map (fun p => (XQ.fin p.1, XQ.fin p.2)) := by
  clear hr
  simp only [AABB.intersects_ray_raw, specSlab, XQ.xmin_fin_fin, XQ.xmin_fin_posInf,
    XQ.xmax_negInf_any, XQ.xmax_fin_fin, XQ.xmin_posInf_any, max_max_min, XQ.le,
    ge_iff_le]
  have hpure := slab_aux
    (min (r.tOf a.min).x (r.tOf a.max).x) (max (r.tOf a.min).x (r.tOf a.max).x)
    (min (r.tOf a.min).y (r.tOf a.max).y) (max (r.tOf a.min).y (r.tOf a.max).y)
    (min (r.tOf a.min).z (r.tOf a.max).z) (max (r.tOf a.min).z (r.tOf a.max).z)
    _ _ _ _ _ _ min_le_max rfl rfl rfl rfl rfl rfl
  have hmap := congrArg (Option.map (fun p : ℚ × ℚ => (XQ.fin p.1, XQ.fin p.2))) hpure
  rw [apply_ite (Option.map (fun p : ℚ × ℚ => (XQ.fin p.1, XQ.fin p.2)))] at hmap
  simp only [Option.map_none', Option.map_some'] at hmap
  exact hmap

/-!
## Claim C8: `extend_for`
-/

namespace AABB

/-- One doubling step of `extend_for`: either the min-side or the
max-side doubling. -/
def extStepRel (a b : AABB) : Prop := b = a.minStep ∨ b = a.maxStep

/-- `minStep` keeps `max` and doubles the extent. -/
theorem minStep_max (a : AABB) : a.minStep.max = a.max := rfl

/-- `maxStep` keeps `min`. -/
theorem maxStep_min (a : AABB) : a.maxStep.min = a.min := rfl

theorem minStep_valid {a : AABB} (h : a.valid) : a.minStep.valid := by
  obtain ⟨h1, h2, h3⟩ := h
  refine ⟨?_, ?_, ?_⟩ <;> simp only [minStep, AABB.length, V3.sub] <;> linarith

theorem maxStep_valid {a : AABB} (h : a.valid) : a.maxStep.valid := by
  obtain ⟨h1, h2, h3⟩ := h
  refine ⟨?_, ?_, ?_⟩ <;> simp only [maxStep, AABB.length, V3.add, V3.sub] <;> linarith

/-- Chains concatenate when the second starts at the last box of the
first. -/
theorem chain_append_of (R : AABB → AABB → Prop) :
    ∀ (l1 : List AABB) (a : AABB) (l2 : List AABB),
      List.Chain R a l1 → List.Chain R (l1.getLastD a) l2 →
        List.Chain R a (l1 ++ l2)
  | [], a, l2, _, h2 => h2
  | b :: l1, a, l2, h1, h2 => by
    rcases h1 with _ | ⟨hab, h1⟩
    rw [List.getLastD_cons] at h2
    exact List.Chain.cons hab (chain_append_of R l1 b l2 h1 h2)

/-- Shape of a successful first `extend_for` loop: the trace is a chain
of min-side doublings ending at the result, `max` is untouched, the
result min-covers `other`, and validity is preserved. -/
theorem extLoop1_spec (other : AABB) :
    ∀ (fuel : ℕ) (a a1 : AABB) (tr : List AABB),
      extLoop1 other fuel a = some (a1, tr) →
        List.Chain extStepRel a tr ∧ tr.getLastD a = a1 ∧
        a1.max = a.max ∧ cond1 a1 other = false ∧ (a.valid → a1.valid)
  | 0, a, a1, tr => by
    intro h
    unfold extLoop1 at h
    by_cases hc : cond1 a other = true
    · rw [if_pos hc] at h; exact absurd h (by simp)
    · rw [if_neg hc] at h
      obtain ⟨rfl, rfl⟩ : a = a1 ∧ [] = tr := by
        have := Option.some.inj h
        exact ⟨congrArg Prod.fst this, congrArg Prod.snd this⟩
      exact ⟨List.Chain.nil, rfl, rfl, by simpa using hc, id⟩
  | fuel+1, a, a1, tr => by
    intro h
    unfold extLoop1 at h
    by_cases hc : cond1 a other = true
    · rw [if_pos hc] at h
      cases hrec : extLoop1 other fuel a.minStep with
      | none => rw [hrec] at h; exact absurd h (by simp)
      | some p =>
        rw [hrec] at h
        obtain ⟨a2, tr2⟩ := p
        simp only [Option.map_some'] at h
        obtain ⟨rfl, rfl⟩ : a2 = a1 ∧ a.minStep :: tr2 = tr := by
          have := Option.some.inj h
          exact ⟨congrArg Prod.fst this, congrArg Prod.snd this⟩
        obtain ⟨hch, hlast, hmax, hcond, hval⟩ :=
          extLoop1_spec other fuel a.minStep _ _ hrec
        refine ⟨List.Chain.cons (Or.inl rfl) hch, ?_, ?_, hcond, ?_⟩
        · rw [List.getLastD_cons]; exact hlast
        · rw [hmax, minStep_max]
        · exact fun hv => hval (minStep_valid hv)
    · rw [if_neg hc] at h
      obtain ⟨rfl, rfl⟩ : a = a1 ∧ [] = tr := by
        have := Option.some.inj h
        exact ⟨congrArg Prod.fst this, congrArg Prod.snd this⟩
      exact ⟨List.Chain.nil, rfl, rfl, by simpa using hc, id⟩

/-- Shape of a successful second `extend_for` loop. -/
theorem extLoop2_spec (other : AABB) :
    ∀ (fuel : ℕ) (a a1 : AABB) (tr : List AABB),
      extLoop2 other fuel a = some (a1, tr) →
        List.Chain extStepRel a tr ∧ tr.getLastD a = a1 ∧
        a1.min = a.min ∧ cond2 a1 other = false ∧ (a.valid → a1.valid)
  | 0, a, a1, tr => by
    intro h
    unfold extLoop2 at h
    by_cases hc : cond2 a other = true
    · rw [if_pos hc] at h; exact absurd h (by simp)
    · rw [if_neg hc] at h
      obtain ⟨rfl, rfl⟩ : a = a1 ∧ [] = tr := by
        have := Option.some.inj h
        exact ⟨congrArg Prod.fst this, congrArg Prod.snd this⟩
      exact ⟨List.Chain.nil, rfl, rfl, by simpa using hc, id⟩
  | fuel+1, a, a1, tr => by
    intro h
    unfold extLoop2 at h
    by_cases hc : cond2 a other = true
    · rw [if_pos hc] at h
      cases hrec : extLoop2 other fuel a.maxStep with
      | none => rw [hrec] at h; exact absurd h (by simp)
      | some p =>
        rw [hrec] at h
        obtain ⟨a2, tr2⟩ := p
        simp only [Option.map_some'] at h
        obtain ⟨rfl, rfl⟩ : a2 = a1 ∧ a.maxStep :: tr2 = tr := by
          have := Option.some.inj h
          exact ⟨congrArg Prod.fst this, congrArg Prod.snd this⟩
        obtain ⟨hch, hlast, hmin, hcond, hval⟩ :=
          extLoop2_spec other fuel a.maxStep _ _ hrec
        refine ⟨List.Chain.cons (Or.inr rfl) hch, ?_, ?_, hcond, ?_⟩
        · rw [List.getLastD_cons]; exact hlast
        · rw [hmin, maxStep_min]
        · exact fun hv => hval (maxStep_valid hv)
    · rw [if_neg hc] at h
      obtain ⟨rfl, rfl⟩ : a = a1 ∧ [] = tr := by
        have := Option.some.inj h
        exact ⟨congrArg Prod.fst this, congrArg Prod.snd this⟩
      exact ⟨List.Chain.nil, rfl, rfl, by simpa using hc, id⟩

end AABB

namespace AABB

/-- Fuel sufficiency for the first loop: once the doubled extent passes
`other`'s min on every axis, the loop completes. -/
theorem extLoop1_term (other : AABB) :
    ∀ (fuel : ℕ) (a : AABB),
      a.max.x - 2 ^ fuel * (a.max.x - a.min.x) ≤ other.min.x →
      a.max.y - 2 ^ fuel * (a.max.y - a.min.y) ≤ other.min.y →
      a.max.z - 2 ^ fuel * (a.max.z - a.min.z) ≤ other.min.z →
      (extLoop1 other fuel a).isSome = true
  | 0, a => by
    intro hx hy hz
    rw [pow_zero] at hx hy hz
    have hc : cond1 a other = false := by
      simp only [cond1, Bool.or_eq_false_iff, decide_eq_false_iff_not, not_lt]
      exact ⟨⟨by linarith, by linarith⟩, by linarith⟩
    unfold extLoop1
    rw [hc]
    simp
  | fuel+1, a => by
    intro hx hy hz
    unfold extLoop1
    by_cases hc : cond1 a other = true
    · rw [hc]
      simp only [if_true]
      have hrec := extLoop1_term other fuel a.minStep
        (by simp only [minStep, AABB.length, V3.sub]; ring_nf; ring_nf at hx; linarith)
        (by simp only [minStep, AABB.length, V3.sub]; ring_nf; ring_nf at hy; linarith)
        (by simp only [minStep, AABB.length, V3.sub]; ring_nf; ring_nf at hz; linarith)
      cases hres : extLoop1 other fuel a.minStep with
      | none => rw [hres] at hrec; exact absurd hrec (by simp)
      | some p => simp
    · rw [Bool.not_eq_true] at hc
      rw [hc]
      simp

/-- Fuel sufficiency for the second loop. -/
theorem extLoop2_term (other : AABB) :
    ∀ (fuel : ℕ) (a : AABB),
      other.max.x ≤ a.min.x + 2 ^ fuel * (a.max.x - a.min.x) →
      other.max.y ≤ a.min.y + 2 ^ fuel * (a.max.y - a.min.y) →
      other.max.z ≤ a.min.z + 2 ^ fuel * (a.max.z - a.min.z) →
      (extLoop2 other fuel a).isSome = true
  | 0, a => by
    intro hx hy hz
    rw [pow_zero] at hx hy hz
    have hc : cond2 a other = false := by
      simp only [cond2, Bool.or_eq_false_iff, decide_eq_false_iff_not, not_lt]
      exact ⟨⟨by linarith, by linarith⟩, by linarith⟩
    unfold extLoop2
    rw [hc]
    simp
  | fuel+1, a => by
    intro hx hy hz
    unfold extLoop2
    by_cases hc : cond2 a other = true
    · rw [hc]
      simp only [if_true]
      have hrec := extLoop2_term other fuel a.maxStep
        (by simp only [maxStep, AABB.length, V3.add, V3.sub]; ring_nf; ring_nf at hx; linarith)
        (by simp only [maxStep, AABB.length, V3.add, V3.sub]; ring_nf; ring_nf at hy; linarith)
        (by simp only [maxStep, AABB.length, V3.add, V3.sub]; ring_nf; ring_nf at hz; linarith)
      cases hres : extLoop2 other fuel a.maxStep with
      | none => rw [hres] at hrec; exact absurd hrec (by simp)
      | some p => simp
    · rw [Bool.not_eq_true] at hc
      rw [hc]
      simp

/-- More fuel does not change a completed first loop. -/
theorem extLoop1_mono (other : AABB) :
    ∀ (f1 f2 : ℕ) (a : AABB) (p : AABB × List AABB), f1 ≤ f2 →
      extLoop1 other f1 a = some p → extLoop1 other f2 a = some p
  | 0, f2, a, p => by
    intro hle h
    unfold extLoop1 at h
    by_cases hc : cond1 a other = true
    · rw [hc] at h; simp at h
    · rw [Bool.not_eq_true] at hc
      rw [hc] at h
      cases f2 with
      | zero => unfold extLoop1; rw [hc]; exact h
      | succ f => unfold extLoop1; rw [hc]; simp only [Bool.false_eq_true, if_false]; exact h
  | f1+1, f2, a, p => by
    intro hle h
    obtain ⟨f, rfl⟩ : ∃ f, f2 = f + 1 := ⟨f2 - 1, by omega⟩
    unfold extLoop1 at h ⊢
    by_cases hc : cond1 a other = true
    · rw [hc] at h ⊢
      simp only [if_true] at h ⊢
      cases hres : extLoop1 other f1 a.minStep with
      | none => rw [hres] at h; simp at h
      | some q =>
        rw [hres] at h
        rw [extLoop1_mono other f1 f a.minStep q (by omega) hres]
        exact h
    · rw [Bool.not_eq_true] at hc
      rw [hc] at h ⊢
      exact h

/-- More fuel does not change a completed second loop. -/
theorem extLoop2_mono (other : AABB) :
    ∀ (f1 f2 : ℕ) (a : AABB) (p : AABB × List AABB), f1 ≤ f2 →
      extLoop2 other f1 a = some p → extLoop2 other f2 a = some p
  | 0, f2, a, p => by
    intro hle h
    unfold extLoop2 at h
    by_cases hc : cond2 a other = true
    · rw [hc] at h; simp at h
    · rw [Bool.not_eq_true] at hc
      rw [hc] at h
      cases f2 with
      | zero => unfold extLoop2; rw [hc]; exact h
      | succ f => unfold extLoop2; rw [hc]; simp only [Bool.false_eq_true, if_false]; exact h
  | f1+1, f2, a, p => by
    intro hle h
    obtain ⟨f, rfl⟩ : ∃ f, f2 = f + 1 := ⟨f2 - 1, by omega⟩
    unfold extLoop2 at h ⊢
    by_cases hc : cond2 a other = true
    · rw [hc] at h ⊢
      simp only [if_true] at h ⊢
      cases hres : extLoop2 other f1 a.maxStep with
      | none => rw [hres] at h; simp at h
      | some q =>
        rw [hres] at h
        rw [extLoop2_mono other f1 f a.maxStep q (by omega) hres]
        exact h
    · rw [Bool.not_eq_true] at hc
      rw [hc] at h ⊢
      exact h

end AABB

namespace AABB

/-- Archimedean fuel bound for the min-side doubling. -/
theorem axisFuel1 (M m o : ℚ) (hL : 0 < M - m) :
    ∃ n : ℕ, ∀ f : ℕ, n ≤ f → M - 2 ^ f * (M - m) ≤ o := by
  obtain ⟨n, hn⟩ := pow_unbounded_of_one_lt ((M - o) / (M - m)) one_lt_two
  refine ⟨n, fun f hf => ?_⟩
  have h1 : (M - o) / (M - m) < (2:ℚ) ^ f :=
    lt_of_lt_of_le hn (pow_le_pow_right₀ (by norm_num) hf)
  have h2 : M - o < 2 ^ f * (M - m) := (div_lt_iff₀ hL).mp h1
  linarith

/-- Archimedean fuel bound for the max-side doubling. -/
theorem axisFuel2 (M m o : ℚ) (hL : 0 < M - m) :
    ∃ n : ℕ, ∀ f : ℕ, n ≤ f → o ≤ m + 2 ^ f * (M - m) := by
  obtain ⟨n, hn⟩ := pow_unbounded_of_one_lt ((o - m) / (M - m)) one_lt_two
  refine ⟨n, fun f hf => ?_⟩
  have h1 : (o - m) / (M - m) < (2:ℚ) ^ f :=
    lt_of_lt_of_le hn (pow_le_pow_right₀ (by norm_num) hf)
  have h2 : o - m < 2 ^ f * (M - m) := (div_lt_iff₀ hL).mp h1
  linarith

theorem getLastD_append_d (l1 l2 : List AABB) (d : AABB) :
    (l1 ++ l2).getLastD d = l2.getLastD (l1.getLastD d) := by
  induction l1 generalizing d with
  | nil => rfl
  | cons b l ih => simp only [List.cons_append, List.getLastD_cons, ih]

end AABB

/-- C8: for every pair of valid boxes, `extend_for` terminates (some
fuel completes both loops), and every completed run invokes the
callback exactly once per doubling — the trace is a chain of single
min- or max-side doublings starting from the box, ending at the final
grown box — and the final box covers `other`. -/
theorem c8_extend_for (a other : AABB) (hv : a.valid) :
    (∃ fuel r tr, AABB.extend_for fuel a other = some (r, tr)) ∧
    (∀ fuel r tr, AABB.extend_for fuel a other = some (r, tr) →
       AABB.covers r other ∧ List.Chain AABB.extStepRel a tr ∧
         tr.getLastD a = r) := by
  constructor
  · -- termination
    obtain ⟨nx, hnx⟩ := AABB.axisFuel1 a.max.x a.min.x other.min.x (by
      have := hv.1; linarith)
    obtain ⟨ny, hny⟩ := AABB.axisFuel1 a.max.y a.min.y other.min.y (by
      have := hv.2.1; linarith)
    obtain ⟨nz, hnz⟩ := AABB.axisFuel1 a.max.z a.min.z other.min.z (by
      have := hv.2.2; linarith)
    set f1 := max (max nx ny) nz with hf1
    have h1 : (AABB.extLoop1 other f1 a).isSome = true :=
      AABB.extLoop1_term other f1 a
        (hnx f1 (by omega)) (hny f1 (by omega)) (hnz f1 (by omega))
    cases hres1 : AABB.extLoop1 other f1 a with
    | none => rw [hres1] at h1; exact absurd h1 (by simp)
    | some p1 =>
      obtain ⟨a1, tr1⟩ := p1
      obtain ⟨hch1, hlast1, hmax1, hcond1, hval1⟩ :=
        AABB.extLoop1_spec other f1 a _ _ hres1
      have hv1 : a1.valid := hval1 hv
      obtain ⟨mx, hmx⟩ := AABB.axisFuel2 a1.max.x a1.min.x other.max.x (by
        have := hv1.1; linarith)
      obtain ⟨my, hmy⟩ := AABB.axisFuel2 a1.max.y a1.min.y other.max.y (by
        have := hv1.2.1; linarith)
      obtain ⟨mz, hmz⟩ := AABB.axisFuel2 a1.max.z a1.min.z other.max.z (by
        have := hv1.2.2; linarith)
      set f2 := max (max mx my) mz with hf2
      have h2 : (AABB.extLoop2 other f2 a1).isSome = true :=
        AABB.extLoop2_term other f2 a1
          (hmx f2 (by omega)) (hmy f2 (by omega)) (hmz f2 (by omega))
      cases hres2 : AABB.extLoop2 other f2 a1 with
      | none => rw [hres2] at h2; exact absurd h2 (by simp)
      | some p2 =>
        obtain ⟨a2, tr2⟩ := p2
        refine ⟨max f1 f2, a2, tr1 ++ tr2, ?_⟩
        unfold AABB.extend_for
        rw [AABB.extLoop1_mono other f1 (max f1 f2) a _ (by omega) hres1]
        dsimp only
        rw [AABB.extLoop2_mono other f2 (max f1 f2) a1 _ (by omega) hres2]
  · -- correctness of every completed run
    intro fuel r tr h
    unfold AABB.extend_for at h
    cases hres1 : AABB.extLoop1 other fuel a with
    | none => rw [hres1] at h; exact absurd h (by simp)
    | some p1 =>
      rw [hres1] at h
      obtain ⟨a1, tr1⟩ := p1
      dsimp only at h
      cases hres2 : AABB.extLoop2 other fuel a1 with
      | none => rw [hres2] at h; exact absurd h (by simp)
      | some p2 =>
        rw [hres2] at h
        dsimp only at h
        obtain ⟨a2, tr2⟩ := p2
        obtain ⟨rfl, rfl⟩ : a2 = r ∧ tr1 ++ tr2 = tr := by
          have := Option.some.inj h
          exact ⟨congrArg Prod.fst this, congrArg Prod.snd this⟩
        obtain ⟨hch1, hlast1, hmax1, hcond1, hval1⟩ :=
          AABB.extLoop1_spec other fuel a _ _ hres1
        obtain ⟨hch2, hlast2, hmin2, hcond2, hval2⟩ :=
          AABB.extLoop2_spec other fuel a1 _ _ hres2
        refine ⟨⟨?_, ?_⟩, ?_, ?_⟩
        · -- min side covers
          simp only [AABB.cond1, Bool.or_eq_false_iff, decide_eq_false_iff_not,
            not_lt] at hcond1
          rw [V3.vle, hmin2]
          exact ⟨hcond1.1.1, hcond1.1.2, hcond1.2⟩
        · -- max side covers
          simp only [AABB.cond2, Bool.or_eq_false_iff, decide_eq_false_iff_not,
            not_lt] at hcond2
          exact ⟨hcond2.1.1, hcond2.1.2, hcond2.2⟩
        · exact AABB.chain_append_of _ tr1 a tr2 hch1 (by rw [hlast1]; exact hch2)
        · rw [AABB.getLastD_append_d, hlast1, hlast2]

/-- Witness for C8 at a concrete pair of boxes. -/
theorem c8_witness :
    (∃ fuel r tr,
        AABB.extend_for fuel ⟨⟨-1, -1, -1⟩, ⟨1, 1, 1⟩⟩ ⟨⟨3, 3, 3⟩, ⟨5, 5, 5⟩⟩ =
          some (r, tr)) ∧
    (∀ fuel r tr,
        AABB.extend_for fuel ⟨⟨-1, -1, -1⟩, ⟨1, 1, 1⟩⟩ ⟨⟨3, 3, 3⟩, ⟨5, 5, 5⟩⟩ =
            some (r, tr) →
          AABB.covers r ⟨⟨3, 3, 3⟩, ⟨5, 5, 5⟩⟩ ∧
            List.Chain AABB.extStepRel ⟨⟨-1, -1, -1⟩, ⟨1, 1, 1⟩⟩ tr ∧
            tr.getLastD ⟨⟨-1, -1, -1⟩, ⟨1, 1, 1⟩⟩ = r) :=
  c8_extend_for ⟨⟨-1, -1, -1⟩, ⟨1, 1, 1⟩⟩ ⟨⟨3, 3, 3⟩, ⟨5, 5, 5⟩⟩ (by decide)

/-!
## Claim C4: `remove` of an absent handle
-/

/-- A failed `BTreeSet::remove` leaves the list unchanged. -/
theorem entsRemove_false (h : ℕ) :
    ∀ l : List OctreeEntity, (entsRemove h l).1 = false → (entsRemove h l).2 = l
  | [], _ => rfl
  | a :: rest, hf => by
    unfold entsRemove at hf ⊢
    by_cases he : a.entity = h
    · rw [if_pos he] at hf; exact absurd hf (by simp)
    · rw [if_neg he] at hf ⊢
      dsimp only at hf ⊢
      rw [entsRemove_false h rest hf]

/-- Writing back the element already stored at a position is a no-op. -/
theorem set_get_self {α : Type} :
    ∀ (l : List α) (i : ℕ) (x : α), l.get? i = some x → l.set i x = l
  | [], i, x, h => by simp at h
  | a :: rest, 0, x, h => by
    simp only [List.get?] at h
    simp [Option.some.inj h]
  | a :: rest, i+1, x, h => by
    simp only [List.get?] at h
    simp [set_get_self rest i x h]

/-- `idles_node` never touches `len`, `base_aabb` or `min_leaf_extent`. -/
theorem idles_node_frame (t : Octree) (i oi : ℕ) (t2 : Octree)
    (h : Octree.idles_node t i oi = Res.ok t2) :
    t2.len = t.len ∧ t2.base_aabb = t.base_aabb ∧
      t2.min_leaf_extent = t.min_leaf_extent := by
  unfold Octree.idles_node at h
  cases hg : t.nodes.get? i with
  | none => rw [hg] at h; exact absurd h (by simp)
  | some nd =>
    rw [hg] at h
    dsimp only at h
    by_cases hp : nd.parent ≠ NULL_INDEX
    · rw [if_pos hp] at h
      cases hgp : t.nodes.get? nd.parent with
      | none => rw [hgp] at h; exact absurd h (by simp)
      | some p =>
        rw [hgp] at h
        dsimp only at h
        by_cases hcl : p.children_len = 0
        · rw [if_pos hcl] at h; exact absurd h (by simp)
        · rw [if_neg hcl] at h
          cases hg2 : (t.nodes.set nd.parent
              { p with
                  children := p.children.set oi NULL_INDEX,
                  children_len := p.children_len - 1 }).get? i with
          | none => rw [hg2] at h; exact absurd h (by simp)
          | some nd1 =>
            rw [hg2] at h
            have := Res.ok.inj h
            subst this
            exact ⟨rfl, rfl, rfl⟩
    · rw [if_neg hp] at h
      have := Res.ok.inj h
      subst this
      exact ⟨rfl, rfl, rfl⟩

/-- The node write-back of a failed removal is the identity on the
tree. -/
theorem remove_tmod_eq (t : Octree) (index : ℕ) (nd : OctreeNode) (entity : ℕ)
    (hg : t.nodes.get? index = some nd)
    (hr : (entsRemove entity nd.entities).1 = false) :
    ({ t with nodes := t.nodes.set index { nd with entities := (entsRemove entity nd.entities).2 } } : Octree) = t := by
  have hsame := entsRemove_false entity nd.entities hr
  have hnodes : t.nodes.set index
      { nd with entities := (entsRemove entity nd.entities).2 } = t.nodes := by
    rw [hsame]
    exact set_get_self _ index nd hg
  rw [hnodes]

/-- Characterisation of a failed removal descent: the tree is unchanged
unless the reached node was already empty and childless, in which case
exactly that node is recycled. -/
theorem removeLoop_false_spec (entity : ℕ) (aabb : AABB) :
    ∀ (fuel : ℕ) (t : Octree) (index octi : ℕ) (t1 : Octree),
      Octree.removeLoop entity aabb fuel t index octi = Res.ok (false, t1) →
        t1 = t ∨ ∃ i oi nd, t.nodes.get? i = some nd ∧ nd.entities = [] ∧
          nd.children_len = 0 ∧ Octree.idles_node t i oi = Res.ok t1
  | 0, t, index, octi, t1 => by
    intro h
    exact absurd h (by unfold Octree.removeLoop; simp)
  | fuel+1, t, index, octi, t1 => by
    intro h
    unfold Octree.removeLoop at h
    by_cases hn : index = NULL_INDEX
    · rw [if_pos hn] at h
      have := Res.ok.inj h
      exact Or.inl (congrArg Prod.snd this).symm
    · rw [if_neg hn] at h
      cases hg : t.nodes.get? index with
      | none => rw [hg] at h; exact absurd h (by simp)
      | some nd =>
        rw [hg] at h
        dsimp only at h
        by_cases hcl : nd.children_len = 0
        · rw [if_pos hcl] at h
          by_cases hemp : (entsRemove entity nd.entities).2 = []
          · rw [if_pos hemp] at h
            cases hid : Octree.idles_node { t with nodes := t.nodes.set index { nd with entities := (entsRemove entity nd.entities).2 } } index octi with
            | panic => rw [hid] at h; exact absurd h (by simp)
            | fuelOut => rw [hid] at h; exact absurd h (by simp)
            | ok t2 =>
              rw [hid] at h
              have hinj := Res.ok.inj h
              have hr : (entsRemove entity nd.entities).1 = false :=
                congrArg Prod.fst hinj
              have ht2 : t2 = t1 := congrArg Prod.snd hinj
              have hents : nd.entities = [] := by
                rw [← entsRemove_false entity nd.entities hr, hemp]
              rw [remove_tmod_eq t index nd entity hg hr] at hid
              exact Or.inr ⟨index, octi, nd, hg, hents, hcl, ht2 ▸ hid⟩
          · rw [if_neg hemp] at h
            have hinj := Res.ok.inj h
            obtain ⟨hr, ht1⟩ := Prod.mk.inj hinj
            refine Or.inl ?_
            rw [← ht1]
            exact remove_tmod_eq t index nd entity hg hr
        · rw [if_neg hcl] at h
          cases ho : (aabb.subV nd.aabb.center).octant with
          | some o =>
            rw [ho] at h
            exact removeLoop_false_spec entity aabb fuel t _ _ t1 h
          | none =>
            rw [ho] at h
            have hinj := Res.ok.inj h
            obtain ⟨hr, ht1⟩ := Prod.mk.inj hinj
            refine Or.inl ?_
            rw [← ht1]
            exact remove_tmod_eq t index nd entity hg hr

/-- C4 (amended): a removal that returns `false` leaves `count`
unchanged, and leaves the tree unchanged unless the node the descent
reached was already empty and childless — in that case exactly that
node is unlinked and recycled despite the failed removal. -/
theorem c4_remove_absent (fuel : ℕ) (t : Octree) (h : ℕ) (b : AABB)
    (t1 : Octree) (hrun : Octree.remove fuel t h b = Res.ok (false, t1)) :
    t1.len = t.len ∧
      (t1 = t ∨ ∃ i oi nd, t.nodes.get? i = some nd ∧ nd.entities = [] ∧
        nd.children_len = 0 ∧ Octree.idles_node t i oi = Res.ok t1) := by
  unfold Octree.remove at hrun
  cases hres : Octree.removeLoop h b fuel t t.root NULL_INDEX with
  | panic => rw [hres] at hrun; exact absurd hrun (by simp)
  | fuelOut => rw [hres] at hrun; exact absurd hrun (by simp)
  | ok p =>
    rw [hres] at hrun
    obtain ⟨r, t2⟩ := p
    dsimp only at hrun
    cases r with
    | true =>
      simp only [if_true] at hrun
      by_cases hz : t2.len = 0
      · rw [if_pos hz] at hrun
        exact absurd hrun (by simp)
      · rw [if_neg hz] at hrun
        have := Res.ok.inj hrun
        exact absurd (congrArg Prod.fst this) (by simp)
    | false =>
      simp only [Bool.false_eq_true, if_false] at hrun
      have := Res.ok.inj hrun
      have ht : t2 = t1 := congrArg Prod.snd this
      subst ht
      have hspec := removeLoop_false_spec h b fuel t t.root NULL_INDEX t2 hres
      refine ⟨?_, hspec⟩
      rcases hspec with rfl | ⟨i, oi, nd, hg, _, _, hid⟩
      · rfl
      · exact (idles_node_frame t i oi t2 hid).1

def c4base : AABB := ⟨⟨-4, -4, -4⟩, ⟨4, 4, 4⟩⟩
def c4bA : AABB := ⟨⟨-3, -3, -3⟩, ⟨-2, -2, -2⟩⟩
def c4t0 : Octree := Octree.new ⟨4, 4, 4⟩ c4base

/-- State after inserting entity 0. -/
def c4s1 : Octree :=
  match Octree.insert 20 c4t0 ⟨0, c4bA⟩ with
  | Res.ok p => p.2
  | _ => c4t0

/-- State after removing entity 0 again (leaves an empty childless
root). -/
def c4s2 : Octree :=
  match Octree.remove 20 c4s1 0 c4bA with
  | Res.ok p => p.2
  | _ => c4t0

/-- State after removing the absent handle 7. -/
def c4s3 : Octree :=
  match Octree.remove 20 c4s2 7 c4bA with
  | Res.ok p => p.2
  | _ => c4t0

/-- C4 counterexample: removing an absent handle returns `false` but
changes the tree structure (the empty childless root is recycled and
`root` becomes NULL). -/
theorem c4_counterexample :
    Octree.remove 20 c4s2 7 c4bA = Res.ok (false, c4s3) ∧ c4s3 ≠ c4s2 := by
  constructor <;> decide

/-- Witness for C4 on the concrete failed removal above. -/
theorem c4_witness :
    c4s3.len = c4s2.len ∧
      (c4s3 = c4s2 ∨ ∃ i oi nd, c4s2.nodes.get? i = some nd ∧
        nd.entities = [] ∧ nd.children_len = 0 ∧
        Octree.idles_node c4s2 i oi = Res.ok c4s3) :=
  c4_remove_absent 20 c4s2 7 c4bA c4s3 (by decide)

/-!
## Claim C3: handle uniqueness across the tree
-/

/-- Number of arena slots whose entity set contains handle `h`. -/
def Octree.cntHandle (t : Octree) (h : ℕ) : ℕ :=
  (t.nodes.filter (fun nd => entsContains nd.entities h)).length

/-- The claim's invariant: every handle is stored in at most one node. -/
def Octree.UniqueHandles (t : Octree) : Prop :=
  ∀ h : ℕ, Octree.cntHandle t h ≤ 1

/-- Handle `h` is not stored anywhere in the arena. -/
def Octree.Fresh (t : Octree) (h : ℕ) : Prop :=
  ∀ nd ∈ t.nodes, entsContains nd.entities h = false

instance (t : Octree) (h : ℕ) : Decidable (Octree.Fresh t h) := by
  unfold Octree.Fresh; infer_instance

/-- Replacing a slot with one that satisfies the filter predicate alike
keeps the filtered length. -/
theorem filter_len_set_eq {α : Type} (p : α → Bool) :
    ∀ (l : List α) (i : ℕ) (x y : α), l.get? i = some y → p x = p y →
      ((l.set i x).filter p).length = (l.filter p).length
  | [], i, x, y, hg, _ => by simp at hg
  | a :: rest, 0, x, y, hg, hp => by
    have ha : a = y := by simpa using hg
    subst ha
    simp only [List.set, List.filter]
    rw [hp]
    cases p a <;> simp
  | a :: rest, i+1, x, y, hg, hp => by
    simp only [List.get?] at hg
    simp only [List.set, List.filter]
    cases p a <;> simp [filter_len_set_eq p rest i x y hg hp]

/-- Replacing one slot grows the filtered length by at most one. -/
theorem filter_len_set_le {α : Type} (p : α → Bool) :
    ∀ (l : List α) (i : ℕ) (x : α),
      ((l.set i x).filter p).length ≤ (l.filter p).length + 1
  | [], i, x => by simp
  | a :: rest, 0, x => by
    simp only [List.set, List.filter]
    cases hx : p x <;> cases ha : p a <;> simp <;> omega
  | a :: rest, i+1, x => by
    have hrec := filter_len_set_le p rest i x
    simp only [List.set, List.filter]
    cases ha : p a <;> simp <;> omega

/-- Replacing one slot by one that satisfies the predicate no more often
cannot grow the filtered length. -/
theorem filter_len_set_mono {α : Type} (p : α → Bool) :
    ∀ (l : List α) (i : ℕ) (x y : α), l.get? i = some y →
      (p x = true → p y = true) →
      ((l.set i x).filter p).length ≤ (l.filter p).length
  | [], i, x, y, hg, _ => by simp at hg
  | a :: rest, 0, x, y, hg, hp => by
    have ha : a = y := by simpa using hg
    subst ha
    simp only [List.set, List.filter]
    cases hx : p x with
    | false => cases ha : p a <;> simp <;> omega
    | true => rw [hp hx]; simp
  | a :: rest, i+1, x, y, hg, hp => by
    have hrec := filter_len_set_mono p rest i x y hg hp
    simp only [List.get?] at hg
    simp only [List.set, List.filter]
    cases ha : p a <;> simp <;> omega

/-- Appending a slot that fails the predicate keeps the filtered
length. -/
theorem filter_len_append_false {α : Type} (p : α → Bool) (l : List α) (x : α)
    (hx : p x = false) : ((l ++ [x]).filter p).length = (l.filter p).length := by
  rw [List.filter_append]
  simp [List.filter, hx]

/-- `entsInsert` does not change membership of other handles. -/
theorem entsContains_entsInsert_ne (e : OctreeEntity) (h : ℕ)
    (hne : h ≠ e.entity) :
    ∀ l : List OctreeEntity,
      entsContains (entsInsert e l).2 h = entsContains l h
  | [] => by
    simp [entsInsert, entsContains, hne, Ne.symm hne]
  | a :: rest => by
    unfold entsInsert
    by_cases h1 : e.entity < a.entity
    · rw [if_pos h1]
      simp [entsContains, Ne.symm hne]
    · rw [if_neg h1]
      by_cases h2 : e.entity = a.entity
      · rw [if_pos h2]
      · rw [if_neg h2]
        dsimp only
        simp only [entsContains, List.any_cons]
        exact congrArg (fun b => decide (a.entity = h) || b)
          (entsContains_entsInsert_ne e h hne rest)

/-- Membership after `entsRemove` implies membership before. -/
theorem entsContains_entsRemove_imp (h0 h : ℕ) :
    ∀ l : List OctreeEntity,
      entsContains (entsRemove h0 l).2 h = true → entsContains l h = true
  | [] => by simp [entsRemove, entsContains]
  | a :: rest => by
    unfold entsRemove
    by_cases he : a.entity = h0
    · rw [if_pos he]
      intro hc
      simp only [entsContains, List.any_cons]
      simp only [entsContains] at hc
      rw [hc]
      simp
    · rw [if_neg he]
      dsimp only
      simp only [entsContains, List.any_cons]
      intro hc
      rcases Bool.or_eq_true_iff.mp hc with h1 | h1
      · rw [h1]; simp
      · exact Bool.or_eq_true_iff.mpr
          (Or.inr (entsContains_entsRemove_imp h0 h rest h1))

/-- `get_or_create_node` never changes any handle count (fresh slots are
empty, recycled slots keep their entity list). -/
theorem get_or_create_cnt (t : Octree) (aabb : AABB) (parent : ℕ)
    (idx : ℕ) (t1 : Octree)
    (hrun : Octree.get_or_create_node t aabb parent = Res.ok (idx, t1)) :
    ∀ h : ℕ, Octree.cntHandle t1 h = Octree.cntHandle t h := by
  intro h
  unfold Octree.get_or_create_node at hrun
  by_cases hi : t.idle = NULL_INDEX
  · rw [if_pos hi] at hrun
    have := Res.ok.inj hrun
    obtain ⟨-, ht1⟩ := Prod.mk.inj this
    rw [← ht1]
    exact filter_len_append_false _ t.nodes _ rfl
  · rw [if_neg hi] at hrun
    cases hg : t.nodes.get? t.idle with
    | none => rw [hg] at hrun; exact absurd hrun (by simp)
    | some nd =>
      rw [hg] at hrun
      dsimp only at hrun
      have := Res.ok.inj hrun
      obtain ⟨-, ht1⟩ := Prod.mk.inj this
      rw [← ht1]
      exact filter_len_set_eq _ t.nodes t.idle _ nd hg rfl

/-- `idles_node` never changes any handle count. -/
theorem idles_node_cnt (t : Octree) (i oi : ℕ) (t2 : Octree)
    (hrun : Octree.idles_node t i oi = Res.ok t2) :
    ∀ h : ℕ, Octree.cntHandle t2 h = Octree.cntHandle t h := by
  intro h
  unfold Octree.idles_node at hrun
  cases hg : t.nodes.get? i with
  | none => rw [hg] at hrun; exact absurd hrun (by simp)
  | some nd =>
    rw [hg] at hrun
    dsimp only at hrun
    by_cases hp : nd.parent ≠ NULL_INDEX
    · rw [if_pos hp] at hrun
      cases hgp : t.nodes.get? nd.parent with
      | none => rw [hgp] at hrun; exact absurd hrun (by simp)
      | some p =>
        rw [hgp] at hrun
        dsimp only at hrun
        by_cases hcl : p.children_len = 0
        · rw [if_pos hcl] at hrun; exact absurd hrun (by simp)
        · rw [if_neg hcl] at hrun
          cases hg2 : (t.nodes.set nd.parent
              { p with
                  children := p.children.set oi NULL_INDEX,
                  children_len := p.children_len - 1 }).get? i with
          | none => rw [hg2] at hrun; exact absurd hrun (by simp)
          | some nd1 =>
            rw [hg2] at hrun
            have ht2 := Res.ok.inj hrun
            rw [← ht2]
            have step1 :
                ((t.nodes.set nd.parent
                  { p with
                      children := p.children.set oi NULL_INDEX,
                      children_len := p.children_len - 1 }).filter
                    (fun nd => entsContains nd.entities h)).length =
                Octree.cntHandle t h :=
              filter_len_set_eq _ t.nodes nd.parent _ p hgp rfl
            calc ((((t.nodes.set nd.parent
                  { p with
                      children := p.children.set oi NULL_INDEX,
                      children_len := p.children_len - 1 }).set i
                    { nd1 with parent := t.idle }).filter
                      (fun nd => entsContains nd.entities h)).length)
                = (((t.nodes.set nd.parent
                  { p with
                      children := p.children.set oi NULL_INDEX,
                      children_len := p.children_len - 1 }).filter
                      (fun nd => entsContains nd.entities h)).length) :=
                  filter_len_set_eq _ _ i _ nd1 hg2 rfl
              _ = Octree.cntHandle t h := step1
    · rw [if_neg hp] at hrun
      have ht2 := Res.ok.inj hrun
      rw [← ht2]
      exact filter_len_set_eq _ t.nodes i _ nd hg rfl

/-- One `try_extend` callback step never changes any handle count. -/
theorem extendStep_cnt (t : Octree) (cur : AABB) (t1 : Octree)
    (hrun : Octree.extendStep t cur = Res.ok t1) :
    ∀ h : ℕ, Octree.cntHandle t1 h = Octree.cntHandle t h := by
  intro h
  unfold Octree.extendStep at hrun
  cases hgc : Octree.get_or_create_node t cur NULL_INDEX with
  | panic => rw [hgc] at hrun; exact absurd hrun (by simp)
  | fuelOut => rw [hgc] at hrun; exact absurd hrun (by simp)
  | ok q =>
    rw [hgc] at hrun
    obtain ⟨index, ta⟩ := q
    dsimp only at hrun
    cases hg1 : ta.nodes.get? ta.root with
    | none => rw [hg1] at hrun; exact absurd hrun (by simp)
    | some rootNd =>
      rw [hg1] at hrun
      dsimp only at hrun
      cases hg2 : ta.nodes.get? index with
      | none => rw [hg2] at hrun; exact absurd hrun (by simp)
      | some newNd =>
        rw [hg2] at hrun
        dsimp only at hrun
        cases ho : (rootNd.aabb.subV newNd.aabb.center).octant with
        | none => rw [ho] at hrun; exact absurd hrun (by simp)
        | some o =>
          rw [ho] at hrun
          dsimp only at hrun
          cases hg3 : (ta.nodes.set ta.root { rootNd with parent := index }).get? index with
          | none => rw [hg3] at hrun; exact absurd hrun (by simp)
          | some p =>
            rw [hg3] at hrun
            dsimp only at hrun
            have ht1 := Res.ok.inj hrun
            rw [← ht1]
            have base := get_or_create_cnt t cur NULL_INDEX index ta hgc h
            calc ((((ta.nodes.set ta.root { rootNd with parent := index }).set index
                  { p with
                      children_len := p.children_len + 1,
                      children := p.children.set (OctreeNode.octant_to_index o) ta.root }).filter
                    (fun nd => entsContains nd.entities h)).length)
                = (((ta.nodes.set ta.root { rootNd with parent := index }).filter
                    (fun nd => entsContains nd.entities h)).length) :=
                  filter_len_set_eq _ _ index _ p hg3 rfl
              _ = Octree.cntHandle ta h :=
                  filter_len_set_eq _ _ ta.root _ rootNd hg1 rfl
              _ = Octree.cntHandle t h := base

/-- The `try_extend` callback fold never changes any handle count. -/
theorem extendFold_cnt :
    ∀ (trace : List AABB) (t : Octree) (t1 : Octree),
      Octree.extendFold t trace = Res.ok t1 →
      ∀ h : ℕ, Octree.cntHandle t1 h = Octree.cntHandle t h
  | [], t, t1, hrun, h => by
    unfold Octree.extendFold at hrun
    rw [Res.ok.inj hrun]
  | cur :: rest, t, t1, hrun, h => by
    unfold Octree.extendFold at hrun
    cases hstep : Octree.extendStep t cur with
    | panic => rw [hstep] at hrun; exact absurd hrun (by simp)
    | fuelOut => rw [hstep] at hrun; exact absurd hrun (by simp)
    | ok ta =>
      rw [hstep] at hrun
      rw [extendFold_cnt rest ta t1 hrun h]
      exact extendStep_cnt t cur ta hstep h

/-- `try_extend` never changes any handle count. -/
theorem try_extend_cnt (fuel : ℕ) (t : Octree) (aabb : AABB) (t1 : Octree)
    (hrun : Octree.try_extend fuel t aabb = Res.ok t1) :
    ∀ h : ℕ, Octree.cntHandle t1 h = Octree.cntHandle t h := by
  intro h
  unfold Octree.try_extend at hrun
  by_cases hr : t.root = NULL_INDEX
  · rw [if_pos hr] at hrun
    rw [← Res.ok.inj hrun]
    rfl
  · rw [if_neg hr] at hrun
    cases hext : AABB.extend_for fuel t.base_aabb aabb with
    | none => rw [hext] at hrun; exact absurd hrun (by simp)
    | some p =>
      rw [hext] at hrun
      exact extendFold_cnt p.2 t t1 hrun h

/-- The descent loop of `insert` changes no handle count except possibly
adding the inserted handle to one node. -/
theorem insertLoop_cnt (e : OctreeEntity) :
    ∀ (fuel : ℕ) (t : Octree) (index pidx octi : ℕ) (nb : AABB)
      (r : Bool) (t1 : Octree),
      Octree.insertLoop e fuel t index pidx octi nb = Res.ok (r, t1) →
      ∀ h : ℕ,
        (h ≠ e.entity → Octree.cntHandle t1 h = Octree.cntHandle t h) ∧
        Octree.cntHandle t1 e.entity ≤ Octree.cntHandle t e.entity + 1
  | 0, t, index, pidx, octi, nb, r, t1 => by
    intro h
    exact absurd h (by unfold Octree.insertLoop; simp)
  | fuel+1, t, index, pidx, octi, nb, r, t1 => by
    intro hrun h
    unfold Octree.insertLoop at hrun
    by_cases hstop : index = NULL_INDEX ∧
        V3.cmpgtAny t.min_leaf_extent nb.length = true
    · rw [if_pos hstop] at hrun
      cases hg : t.nodes.get? pidx with
      | none => rw [hg] at hrun; exact absurd hrun (by simp)
      | some pnd =>
        rw [hg] at hrun
        dsimp only at hrun
        have hinj := Res.ok.inj hrun
        obtain ⟨-, ht1⟩ := Prod.mk.inj hinj
        rw [← ht1]
        constructor
        · intro hne
          exact filter_len_set_eq _ t.nodes pidx _ pnd hg
            (entsContains_entsInsert_ne e h hne pnd.entities)
        · exact filter_len_set_le _ t.nodes pidx _
    · rw [if_neg hstop] at hrun
      -- dispatch on how the current node is resolved
      have hstep : ∃ idx ta, (Octree.cntHandle ta = Octree.cntHandle t) ∧
          (if index = NULL_INDEX then
            if V3.cmpgtAny t.min_leaf_extent nb.length then Res.panic
            else
              match Octree.get_or_create_node t nb pidx with
              | Res.panic => Res.panic
              | Res.fuelOut => Res.fuelOut
              | Res.ok (idx, t1) =>
                if pidx = NULL_INDEX then
                  Res.ok (idx, { t1 with root := idx })
                else
                  match t1.nodes.get? pidx with
                  | none => Res.panic
                  | some p =>
                    let p1 := { p with
                      children_len := p.children_len + 1,
                      children := p.children.set octi idx }
                    Res.ok (idx, { t1 with nodes := t1.nodes.set pidx p1 })
          else Res.ok (index, t)) = Res.ok (idx, ta) := by
        by_cases hn : index = NULL_INDEX
        · have hsmall : ¬ V3.cmpgtAny t.min_leaf_extent nb.length = true :=
            fun hs => hstop ⟨hn, hs⟩
          rw [if_pos hn, if_neg hsmall]
          cases hgc : Octree.get_or_create_node t nb pidx with
          | panic =>
            exfalso
            rw [if_pos hn, if_neg hsmall, hgc] at hrun
            revert hrun
            cases hgg : t.nodes.get? index <;> simp
          | fuelOut =>
            exfalso
            rw [if_pos hn, if_neg hsmall, hgc] at hrun
            revert hrun
            cases hgg : t.nodes.get? index <;> simp
          | ok q =>
            obtain ⟨idx, ta⟩ := q
            dsimp only
            by_cases hpn : pidx = NULL_INDEX
            · rw [if_pos hpn]
              refine ⟨idx, { ta with root := idx }, ?_, rfl⟩
              funext hh
              exact get_or_create_cnt t nb pidx idx ta hgc hh
            · rw [if_neg hpn]
              cases hgp : ta.nodes.get? pidx with
              | none =>
                exfalso
                rw [if_pos hn, if_neg hsmall, hgc] at hrun
                dsimp only at hrun
                rw [if_neg hpn, hgp] at hrun
                revert hrun
                cases hgg : t.nodes.get? index <;> simp
              | some p =>
                dsimp only
                refine ⟨idx, _, ?_, rfl⟩
                funext hh
                rw [show Octree.cntHandle { ta with nodes := ta.nodes.set pidx { p with children_len := p.children_len + 1, children := p.children.set octi idx } } hh = Octree.cntHandle ta hh from filter_len_set_eq _ ta.nodes pidx _ p hgp rfl]
                exact get_or_create_cnt t nb pidx idx ta hgc hh
        · rw [if_neg hn]
          exact ⟨index, t, rfl, rfl⟩
      obtain ⟨idx, ta, hcnt, hres⟩ := hstep
      rw [hres] at hrun
      dsimp only at hrun
      cases hg : ta.nodes.get? idx with
      | none => rw [hg] at hrun; exact absurd hrun (by simp)
      | some nd =>
        rw [hg] at hrun
        dsimp only at hrun
        cases ho : (e.aabb.subV nd.aabb.center).octant with
        | some o =>
          rw [ho] at hrun
          have ih := insertLoop_cnt e fuel ta _ idx _ _ r t1 hrun h
          rw [hcnt] at ih
          exact ih
        | none =>
          rw [ho] at hrun
          dsimp only at hrun
          have hinj := Res.ok.inj hrun
          obtain ⟨-, ht1⟩ := Prod.mk.inj hinj
          rw [← ht1]
          constructor
          · intro hne
            rw [show Octree.cntHandle { ta with nodes := ta.nodes.set idx { nd with entities := (entsInsert e nd.entities).2 } } h = Octree.cntHandle ta h from filter_len_set_eq _ ta.nodes idx _ nd hg (entsContains_entsInsert_ne e h hne nd.entities)]
            exact congrFun hcnt h
          · calc Octree.cntHandle { ta with nodes := ta.nodes.set idx { nd with entities := (entsInsert e nd.entities).2 } } e.entity
                ≤ Octree.cntHandle ta e.entity + 1 :=
                  filter_len_set_le _ ta.nodes idx _
              _ = Octree.cntHandle t e.entity + 1 := by rw [congrFun hcnt e.entity]

/-- `insert` changes no handle count except possibly adding the
inserted handle to one node. -/
theorem insert_cnt (fuel : ℕ) (t : Octree) (e : OctreeEntity) (r : Bool)
    (t1 : Octree) (hrun : Octree.insert fuel t e = Res.ok (r, t1)) :
    ∀ h : ℕ,
      (h ≠ e.entity → Octree.cntHandle t1 h = Octree.cntHandle t h) ∧
      Octree.cntHandle t1 e.entity ≤ Octree.cntHandle t e.entity + 1 := by
  intro h
  unfold Octree.insert at hrun
  cases hext : Octree.try_extend fuel t e.aabb with
  | panic => rw [hext] at hrun; exact absurd hrun (by simp)
  | fuelOut => rw [hext] at hrun; exact absurd hrun (by simp)
  | ok ta =>
    rw [hext] at hrun
    dsimp only at hrun
    cases hloop : Octree.insertLoop e fuel ta ta.root NULL_INDEX NULL_INDEX
        ta.base_aabb with
    | panic => rw [hloop] at hrun; exact absurd hrun (by simp)
    | fuelOut => rw [hloop] at hrun; exact absurd hrun (by simp)
    | ok p =>
      rw [hloop] at hrun
      obtain ⟨rb, tb⟩ := p
      dsimp only at hrun
      have hinj := Res.ok.inj hrun
      obtain ⟨-, ht1⟩ := Prod.mk.inj hinj
      have hcnt1 : ∀ hh : ℕ, Octree.cntHandle t1 hh = Octree.cntHandle tb hh := by
        intro hh
        rw [← ht1]
        cases rb <;> simp <;> rfl
      have hl := insertLoop_cnt e fuel ta _ _ _ _ rb tb hloop h
      have hle := insertLoop_cnt e fuel ta _ _ _ _ rb tb hloop e.entity
      have hx := try_extend_cnt fuel t e.aabb ta hext
      constructor
      · intro hne
        rw [hcnt1 h, hl.1 hne, hx h]
      · rw [hcnt1 e.entity, ← hx e.entity]
        exact hle.2

/-- The descent loop of `remove` never increases any handle count. -/
theorem removeLoop_cnt (entity : ℕ) (aabb : AABB) :
    ∀ (fuel : ℕ) (t : Octree) (index octi : ℕ) (r : Bool) (t1 : Octree),
      Octree.removeLoop entity aabb fuel t index octi = Res.ok (r, t1) →
      ∀ h : ℕ, Octree.cntHandle t1 h ≤ Octree.cntHandle t h
  | 0, t, index, octi, r, t1 => by
    intro h
    exact absurd h (by unfold Octree.removeLoop; simp)
  | fuel+1, t, index, octi, r, t1 => by
    intro hrun h
    unfold Octree.removeLoop at hrun
    by_cases hn : index = NULL_INDEX
    · rw [if_pos hn] at hrun
      have := Res.ok.inj hrun
      obtain ⟨-, ht1⟩ := Prod.mk.inj this
      rw [← ht1]
    · rw [if_neg hn] at hrun
      cases hg : t.nodes.get? index with
      | none => rw [hg] at hrun; exact absurd hrun (by simp)
      | some nd =>
        rw [hg] at hrun
        dsimp only at hrun
        by_cases hcl : nd.children_len = 0
        · rw [if_pos hcl] at hrun
          have hsetle : Octree.cntHandle { t with nodes := t.nodes.set index { nd with entities := (entsRemove entity nd.entities).2 } } h ≤ Octree.cntHandle t h :=
            filter_len_set_mono _ t.nodes index _ nd hg
              (entsContains_entsRemove_imp entity h nd.entities)
          by_cases hemp : (entsRemove entity nd.entities).2 = []
          · rw [if_pos hemp] at hrun
            cases hid : Octree.idles_node { t with nodes := t.nodes.set index { nd with entities := (entsRemove entity nd.entities).2 } } index octi with
            | panic => rw [hid] at hrun; exact absurd hrun (by simp)
            | fuelOut => rw [hid] at hrun; exact absurd hrun (by simp)
            | ok t2 =>
              rw [hid] at hrun
              have hinj := Res.ok.inj hrun
              obtain ⟨-, ht1⟩ := Prod.mk.inj hinj
              rw [← ht1]
              rw [idles_node_cnt _ index octi t2 hid h]
              exact hsetle
          · rw [if_neg hemp] at hrun
            have hinj := Res.ok.inj hrun
            obtain ⟨-, ht1⟩ := Prod.mk.inj hinj
            rw [← ht1]
            exact hsetle
        · rw [if_neg hcl] at hrun
          cases ho : (aabb.subV nd.aabb.center).octant with
          | some o =>
            rw [ho] at hrun
            exact removeLoop_cnt entity aabb fuel t _ _ r t1 hrun h
          | none =>
            rw [ho] at hrun
            have hinj := Res.ok.inj hrun
            obtain ⟨-, ht1⟩ := Prod.mk.inj hinj
            rw [← ht1]
            exact filter_len_set_mono _ t.nodes index _ nd hg
              (entsContains_entsRemove_imp entity h nd.entities)

/-- `remove` never increases any handle count. -/
theorem remove_cnt (fuel : ℕ) (t : Octree) (entity : ℕ) (aabb : AABB)
    (r : Bool) (t1 : Octree)
    (hrun : Octree.remove fuel t entity aabb = Res.ok (r, t1)) :
    ∀ h : ℕ, Octree.cntHandle t1 h ≤ Octree.cntHandle t h := by
  intro h
  unfold Octree.remove at hrun
  cases hres : Octree.removeLoop entity aabb fuel t t.root NULL_INDEX with
  | panic => rw [hres] at hrun; exact absurd hrun (by simp)
  | fuelOut => rw [hres] at hrun; exact absurd hrun (by simp)
  | ok p =>
    rw [hres] at hrun
    obtain ⟨rb, tb⟩ := p
    dsimp only at hrun
    have hb := removeLoop_cnt entity aabb fuel t _ _ rb tb hres h
    cases rb with
    | true =>
      simp only [if_true] at hrun
      by_cases hz : tb.len = 0
      · rw [if_pos hz] at hrun; exact absurd hrun (by simp)
      · rw [if_neg hz] at hrun
        have hinj := Res.ok.inj hrun
        obtain ⟨-, ht1⟩ := Prod.mk.inj hinj
        rw [← ht1]
        exact hb
    | false =>
      simp only [Bool.false_eq_true, if_false] at hrun
      have hinj := Res.ok.inj hrun
      obtain ⟨-, ht1⟩ := Prod.mk.inj hinj
      rw [← ht1]
      exact hb

/-- A handle absent from the whole arena has count zero. -/
theorem fresh_cnt_zero (t : Octree) (h : ℕ) (hf : Octree.Fresh t h) :
    Octree.cntHandle t h = 0 := by
  unfold Octree.cntHandle
  rw [List.filter_eq_nil.mpr]
  · rfl
  · intro nd hmem
    rw [hf nd hmem]
    simp

/-- States reachable by arbitrary sequences of `insert` and `remove`
from a fresh octree. -/
inductive Octree.Reachable : Octree → Prop
  | base (min_leaf_extent : V3) (aabb : AABB) :
      Octree.Reachable (Octree.new min_leaf_extent aabb)
  | ins (t t1 : Octree) (fuel : ℕ) (e : OctreeEntity) (b : Bool) :
      Octree.Reachable t → Octree.insert fuel t e = Res.ok (b, t1) →
      Octree.Reachable t1
  | rem (t t1 : Octree) (fuel : ℕ) (h : ℕ) (aabb : AABB) (b : Bool) :
      Octree.Reachable t → Octree.remove fuel t h aabb = Res.ok (b, t1) →
      Octree.Reachable t1

/-- States reachable when every inserted handle is fresh (the
remove-before-reinsert discipline the caller contract demands). -/
inductive Octree.ReachableFresh : Octree → Prop
  | base (min_leaf_extent : V3) (aabb : AABB) :
      Octree.ReachableFresh (Octree.new min_leaf_extent aabb)
  | ins (t t1 : Octree) (fuel : ℕ) (e : OctreeEntity) (b : Bool) :
      Octree.ReachableFresh t → Octree.Fresh t e.entity →
      Octree.insert fuel t e = Res.ok (b, t1) → Octree.ReachableFresh t1
  | rem (t t1 : Octree) (fuel : ℕ) (h : ℕ) (aabb : AABB) (b : Bool) :
      Octree.ReachableFresh t → Octree.remove fuel t h aabb = Res.ok (b, t1) →
      Octree.ReachableFresh t1

/-- C3 (amended): in every state reachable by insert/remove sequences in
which each inserted handle is absent from the tree at insertion time,
every handle is stored in at most one node.  (Without that discipline
the invariant fails, see the counterexample.) -/
theorem c3_fresh_inserts_keep_handles_unique (t : Octree)
    (hr : Octree.ReachableFresh t) : Octree.UniqueHandles t := by
  induction hr with
  | base min_leaf_extent aabb =>
    intro h
    show Octree.cntHandle (Octree.new min_leaf_extent aabb) h ≤ 1
    unfold Octree.cntHandle Octree.new
    simp
  | ins t t1 fuel e b hreach hfresh hrun ih =>
    intro h
    by_cases hne : h = e.entity
    · have h2 := (insert_cnt fuel t e b t1 hrun e.entity).2
      rw [fresh_cnt_zero t e.entity hfresh] at h2
      rw [hne]
      omega
    · rw [(insert_cnt fuel t e b t1 hrun h).1 hne]
      exact ih h
  | rem t t1 fuel h0 aabb b hreach hrun ih =>
    intro h
    exact le_trans (remove_cnt fuel t h0 aabb b t1 hrun h) (ih h)

def c3t0 : Octree := Octree.new ⟨4, 4, 4⟩ ⟨⟨-4, -4, -4⟩, ⟨4, 4, 4⟩⟩
def c3e1 : OctreeEntity := ⟨0, ⟨⟨-3, -3, -3⟩, ⟨-2, -2, -2⟩⟩⟩
def c3e2 : OctreeEntity := ⟨0, ⟨⟨2, 2, 2⟩, ⟨3, 3, 3⟩⟩⟩

/-- State after inserting handle 0 in the negative octant. -/
def c3ta : Octree :=
  match Octree.insert 20 c3t0 c3e1 with
  | Res.ok p => p.2
  | _ => c3t0

/-- State after inserting handle 0 again with a different box. -/
def c3tb : Octree :=
  match Octree.insert 20 c3ta c3e2 with
  | Res.ok p => p.2
  | _ => c3t0

/-- C3 counterexample: inserting handle 0 twice with different boxes
produces a reachable state with handle 0 stored in two distinct nodes —
duplicate detection is local to the terminal node, so the tree-wide
invariant of the claim fails. -/
theorem c3_counterexample :
    Octree.Reachable c3tb ∧ Octree.cntHandle c3tb 0 = 2 ∧
      ¬ Octree.UniqueHandles c3tb := by
  refine ⟨?_, by decide, fun hu => absurd (hu 0) (by decide)⟩
  exact Octree.Reachable.ins c3ta c3tb 20 c3e2 true
    (Octree.Reachable.ins c3t0 c3ta 20 c3e1 true
      (Octree.Reachable.base _ _) (by decide)) (by decide)

/-- Witness for C3 on a concrete fresh-insert state. -/
theorem c3_witness : Octree.UniqueHandles c3ta :=
  c3_fresh_inserts_keep_handles_unique c3ta
    (Octree.ReachableFresh.ins c3t0 c3ta 20 c3e1 true
      (Octree.ReachableFresh.base _ _) (by decide) (by decide))

/-!
## Claim C2: `raycast`
-/

/-- Handle `ent` is stored with box `b` somewhere in the arena. -/
def Octree.storedB (t : Octree) (ent : ℕ) (b : AABB) : Bool :=
  t.nodes.any (fun nd => nd.entities.any
    (fun oe => decide (oe.entity = ent) && decide (oe.aabb = b)))

theorem storedB_of_mem (t : Octree) (i : ℕ) (nd : OctreeNode)
    (oe : OctreeEntity) (hg : t.nodes.get? i = some nd)
    (hm : oe ∈ nd.entities) : Octree.storedB t oe.entity oe.aabb = true := by
  unfold Octree.storedB
  rw [List.any_eq_true]
  refine ⟨nd, List.get?_mem hg, ?_⟩
  rw [List.any_eq_true]
  exact ⟨oe, hm, by simp⟩

/-- A hit distance returned by `intersects_ray` is strictly positive. -/
theorem intersects_ray_pos (a : AABB) (r : Ray) (v : XQ)
    (h : a.intersects_ray r = some v) : XQ.lt (XQ.fin 0) v := by
  unfold AABB.intersects_ray AABB.intersects_ray_raw at h
  dsimp only at h
  split_ifs at h with hc
  · exact absurd h (by simp)
  · simp only [Option.map_some'] at h
    have hv := Option.some.inj h
    obtain ⟨h1, h2⟩ := not_or.mp hc
    split_ifs at hv with ht
    · rw [← hv]; exact h1
    · rw [← hv]; exact ht

/-- Soundness of the per-node candidate fold of `raycast_inner`. -/
theorem rcEnts_spec (r : Ray) (Q : ℕ → AABB → Prop) :
    ∀ (l : List OctreeEntity) (ret : Option (ℕ × AABB)) (len : XQ),
      (∀ oe ∈ l, Q oe.entity oe.aabb) →
      (∀ ent b, ret = some (ent, b) → Q ent b ∧ b.intersects_ray r = some len) →
      (∀ ent b, (Octree.rcEnts r l ret len).1 = some (ent, b) →
         Q ent b ∧ b.intersects_ray r = some (Octree.rcEnts r l ret len).2) ∧
      ((Octree.rcEnts r l ret len).1 = none →
         (Octree.rcEnts r l ret len).2 = len ∧ ret = none)
  | [], ret, len, hall, hret => by
    unfold Octree.rcEnts
    exact ⟨hret, fun hn => ⟨rfl, hn⟩⟩
  | oe :: rest, ret, len, hall, hret => by
    unfold Octree.rcEnts
    cases hir : oe.aabb.intersects_ray r with
    | some candidate =>
      dsimp only
      by_cases hlt : XQ.lt candidate len
      · rw [if_pos hlt]
        have hrec := rcEnts_spec r Q rest (some (oe.entity, oe.aabb)) candidate
          (fun x hx => hall x (List.mem_cons_of_mem oe hx))
          (by
            intro ent b hsome
            obtain ⟨he, hb⟩ := Prod.mk.inj (Option.some.inj hsome)
            subst he
            subst hb
            exact ⟨hall oe (List.mem_cons_self oe rest), hir⟩)
        refine ⟨hrec.1, ?_⟩
        intro hn
        exact absurd (hrec.2 hn).2 (by simp)
      · rw [if_neg hlt]
        exact rcEnts_spec r Q rest ret len
          (fun x hx => hall x (List.mem_cons_of_mem oe hx)) hret
    | none =>
      dsimp only
      exact rcEnts_spec r Q rest ret len
        (fun x hx => hall x (List.mem_cons_of_mem oe hx)) hret

/-- Input data of a raycast call state. -/
def Octree.rcLenOf : Octree.RcCall → XQ
  | Octree.RcCall.visit _ len _ => len
  | Octree.RcCall.walk _ _ _ _ len _ => len

/-- Pending result of a raycast call state. -/
def Octree.rcRetOf : Octree.RcCall → Option (ℕ × AABB)
  | Octree.RcCall.visit _ _ _ => none
  | Octree.RcCall.walk _ _ _ ret _ _ => ret

/-- Precondition of a raycast call state: the pending result is a stored
entity whose hit distance is the current best. -/
def Octree.rcPre (r : Ray) (t : Octree) : Octree.RcCall → Prop
  | Octree.RcCall.visit _ _ _ => True
  | Octree.RcCall.walk _ _ _ ret len _ =>
      ∀ ent b, ret = some (ent, b) →
        Octree.storedB t ent b = true ∧ b.intersects_ray r = some len

set_option maxHeartbeats 1600000 in
/-- Soundness of the `raycast_inner` traversal: any returned entity is
stored in the arena and is hit by the ray exactly at the returned best
distance; a `none` result leaves the best distance unchanged and can
only occur with no pending result. -/
theorem rcGo_sound (r : Ray) (t : Octree) :
    ∀ (fuel : ℕ) (c : Octree.RcCall) (res : Option (ℕ × AABB)) (len1 : XQ)
      (pivot1 : ℚ),
      Octree.rcGo r t fuel c = Res.ok (res, len1, pivot1) →
      Octree.rcPre r t c →
      (∀ ent b, res = some (ent, b) →
         Octree.storedB t ent b = true ∧ b.intersects_ray r = some len1) ∧
      (res = none → len1 = Octree.rcLenOf c ∧ Octree.rcRetOf c = none)
  | 0, c, res, len1, pivot1 => by
    intro h
    exact absurd h (by unfold Octree.rcGo; simp)
  | fuel+1, Octree.RcCall.visit index len pivot, res, len1, pivot1 => by
    intro hrun hpre
    unfold Octree.rcGo at hrun
    by_cases hn : index = NULL_INDEX
    · rw [if_pos hn] at hrun
      have hinj := Res.ok.inj hrun
      obtain ⟨hres, hrest⟩ := Prod.mk.inj hinj
      obtain ⟨hlen, -⟩ := Prod.mk.inj hrest
      refine ⟨?_, fun _ => ⟨hlen.symm, rfl⟩⟩
      intro ent b hsome
      rw [← hres] at hsome
      exact absurd hsome (by simp)
    · rw [if_neg hn] at hrun
      cases hg : t.nodes.get? index with
      | none => rw [hg] at hrun; exact absurd hrun (by simp)
      | some nd =>
        rw [hg] at hrun
        dsimp only at hrun
        cases hraw : nd.aabb.intersects_ray_raw r with
        | none =>
          rw [hraw] at hrun
          have hinj := Res.ok.inj hrun
          obtain ⟨hres, hrest⟩ := Prod.mk.inj hinj
          obtain ⟨hlen, -⟩ := Prod.mk.inj hrest
          refine ⟨?_, fun _ => ⟨hlen.symm, rfl⟩⟩
          intro ent b hsome
          rw [← hres] at hsome
          exact absurd hsome (by simp)
        | some q =>
          rw [hraw] at hrun
          obtain ⟨tmin, tmax⟩ := q
          dsimp only at hrun
          have hents := rcEnts_spec r (fun ent b => Octree.storedB t ent b = true)
            nd.entities none len
            (fun oe hm => storedB_of_mem t index nd oe hg hm)
            (by intro ent b hsome; exact absurd hsome (by simp))
          by_cases hcl : nd.children_len ≠ 0
          · rw [if_pos hcl] at hrun
            cases hoct : r.octant_at pivot nd.aabb with
            | some o =>
              rw [hoct] at hrun
              dsimp only at hrun
              cases hwalk : Octree.rcGo r t fuel
                  (Octree.RcCall.walk index o tmax
                    (Octree.rcEnts r nd.entities none len).1
                    (Octree.rcEnts r nd.entities none len).2 pivot) with
              | panic => rw [hwalk] at hrun; exact absurd hrun (by simp)
              | fuelOut => rw [hwalk] at hrun; exact absurd hrun (by simp)
              | ok w =>
                rw [hwalk] at hrun
                obtain ⟨resW, lenW, pivW⟩ := w
                dsimp only at hrun
                have hinj := Res.ok.inj hrun
                obtain ⟨hres, hrest⟩ := Prod.mk.inj hinj
                obtain ⟨hlen, -⟩ := Prod.mk.inj hrest
                have hw := rcGo_sound r t fuel _ resW lenW pivW hwalk hents.1
                constructor
                · intro ent b hsome
                  rw [← hres] at hsome
                  obtain ⟨hs, hi⟩ := hw.1 ent b hsome
                  rw [← hlen]
                  exact ⟨hs, hi⟩
                · intro hnone
                  rw [← hres] at hnone
                  obtain ⟨hlw, hrw⟩ := hw.2 hnone
                  dsimp only [Octree.rcLenOf, Octree.rcRetOf] at hlw hrw
                  refine ⟨?_, rfl⟩
                  rw [← hlen, hlw]
                  exact (hents.2 hrw).1
            | none =>
              rw [hoct] at hrun
              have hinj := Res.ok.inj hrun
              obtain ⟨hres, hrest⟩ := Prod.mk.inj hinj
              obtain ⟨hlen, -⟩ := Prod.mk.inj hrest
              constructor
              · intro ent b hsome
                rw [← hres] at hsome
                obtain ⟨hs, hi⟩ := hents.1 ent b hsome
                rw [← hlen]
                exact ⟨hs, hi⟩
              · intro hnone
                rw [← hres] at hnone
                refine ⟨?_, rfl⟩
                rw [← hlen]
                exact (hents.2 hnone).1
          · rw [if_neg hcl] at hrun
            have hinj := Res.ok.inj hrun
            obtain ⟨hres, hrest⟩ := Prod.mk.inj hinj
            obtain ⟨hlen, -⟩ := Prod.mk.inj hrest
            constructor
            · intro ent b hsome
              rw [← hres] at hsome
              obtain ⟨hs, hi⟩ := hents.1 ent b hsome
              rw [← hlen]
              exact ⟨hs, hi⟩
            · intro hnone
              rw [← hres] at hnone
              refine ⟨?_, rfl⟩
              rw [← hlen]
              exact (hents.2 hnone).1
  | fuel+1, Octree.RcCall.walk index octant tmax ret len pivot, res, len1, pivot1 => by
    intro hrun hpre
    unfold Octree.rcGo at hrun
    cases hg : t.nodes.get? index with
    | none => rw [hg] at hrun; exact absurd hrun (by simp)
    | some nd =>
      rw [hg] at hrun
      dsimp only at hrun
      by_cases hchild : nd.get_child_index octant = NULL_INDEX
      · rw [if_pos hchild] at hrun
        by_cases hdead : r.next_octant octant
            (match (nd.aabb.get_octant octant).intersects_ray_raw r with
              | some q => XQ.toQ q.2
              | none => XQ.toQ tmax) nd.aabb = octant
        · rw [if_pos hdead] at hrun
          have hinj := Res.ok.inj hrun
          obtain ⟨hres, hrest⟩ := Prod.mk.inj hinj
          obtain ⟨hlen, -⟩ := Prod.mk.inj hrest
          constructor
          · intro ent b hsome
            rw [← hres] at hsome
            obtain ⟨hs, hi⟩ := hpre ent b hsome
            rw [← hlen]
            exact ⟨hs, hi⟩
          · intro hnone
            rw [← hres] at hnone
            exact ⟨hlen.symm, hnone⟩
        · rw [if_neg hdead] at hrun
          have hrec := rcGo_sound r t fuel _ res len1 pivot1 hrun hpre
          exact hrec
      · rw [if_neg hchild] at hrun
        cases hvisit : Octree.rcGo r t fuel
            (Octree.RcCall.visit (nd.get_child_index octant) len pivot) with
        | panic => rw [hvisit] at hrun; exact absurd hrun (by simp)
        | fuelOut => rw [hvisit] at hrun; exact absurd hrun (by simp)
        | ok w =>
          rw [hvisit] at hrun
          obtain ⟨resC, lenC, pivC⟩ := w
          dsimp only at hrun
          have hc := rcGo_sound r t fuel _ resC lenC pivC hvisit trivial
          cases hresC : resC with
          | some q =>
            rw [hresC] at hrun
            have hinj := Res.ok.inj hrun
            obtain ⟨hres, hrest⟩ := Prod.mk.inj hinj
            obtain ⟨hlen, -⟩ := Prod.mk.inj hrest
            constructor
            · intro ent b hsome
              rw [← hres] at hsome
              rw [hresC] at hc
              obtain ⟨hs, hi⟩ := hc.1 ent b hsome
              rw [← hlen]
              exact ⟨hs, hi⟩
            · intro hnone
              rw [← hres] at hnone
              exact absurd hnone (by simp)
          | none =>
            rw [hresC] at hrun
            rw [hresC] at hc
            obtain ⟨hlenC, -⟩ := hc.2 rfl
            dsimp only [Octree.rcLenOf] at hlenC
            by_cases hdead : r.next_octant octant pivC nd.aabb = octant
            · rw [if_pos hdead] at hrun
              have hinj := Res.ok.inj hrun
              obtain ⟨hres, hrest⟩ := Prod.mk.inj hinj
              obtain ⟨hlen, -⟩ := Prod.mk.inj hrest
              constructor
              · intro ent b hsome
                rw [← hres] at hsome
                obtain ⟨hs, hi⟩ := hpre ent b hsome
                rw [← hlen, hlenC]
                exact ⟨hs, hi⟩
              · intro hnone
                rw [← hres] at hnone
                refine ⟨?_, hnone⟩
                rw [← hlen]
                exact hlenC
            · rw [if_neg hdead] at hrun
              have hrest := rcGo_sound r t fuel _ res len1 pivot1 hrun (by
                intro ent b hsome
                obtain ⟨hs, hi⟩ := hpre ent b hsome
                rw [hlenC]
                exact ⟨hs, hi⟩)
              refine ⟨hrest.1, ?_⟩
              intro hnone
              obtain ⟨hl, hr⟩ := hrest.2 hnone
              dsimp only [Octree.rcLenOf, Octree.rcRetOf] at hl hr
              rw [hl, hlenC]
              exact ⟨rfl, hr⟩

/-- C2 (amended): `raycast` on an empty tree returns `none`; whenever it
returns an entity, that entity is stored in the tree, its box is hit by
the ray, and the reported distance is exactly that hit distance, which
is strictly positive.  (It is NOT always the entity of smallest positive
hit distance — the octant marching can miss stored boxes entirely, see
the counterexample.) -/
theorem c2_raycast_sound (fuel : ℕ) (t : Octree) (r : Ray)
    (res : Option Octree.RayHitInfo)
    (hrun : Octree.raycast fuel t r = Res.ok res) :
    (t.root = NULL_INDEX → res = none) ∧
    (∀ h : Octree.RayHitInfo, res = some h →
       Octree.storedB t h.entity h.aabb = true ∧
       h.aabb.intersects_ray r = some h.t ∧ XQ.lt (XQ.fin 0) h.t) := by
  unfold Octree.raycast at hrun
  cases hgo : Octree.rcGo r t fuel (Octree.RcCall.visit t.root XQ.posInf 0) with
  | panic => rw [hgo] at hrun; exact absurd hrun (by simp)
  | fuelOut => rw [hgo] at hrun; exact absurd hrun (by simp)
  | ok w =>
    rw [hgo] at hrun
    obtain ⟨resI, len, piv⟩ := w
    dsimp only at hrun
    have hres := Res.ok.inj hrun
    have hsound := rcGo_sound r t fuel _ resI len piv hgo trivial
    constructor
    · intro hroot
      cases fuel with
      | zero => exact absurd hgo (by unfold Octree.rcGo; simp)
      | succ f =>
        unfold Octree.rcGo at hgo
        rw [if_pos hroot] at hgo
        have hinj := Res.ok.inj hgo
        obtain ⟨hresI, -⟩ := Prod.mk.inj hinj
        rw [← hres, ← hresI]
        rfl
    · intro h hsome
      rw [← hres] at hsome
      cases hresI : resI with
      | none => rw [hresI] at hsome; exact absurd hsome (by simp)
      | some q =>
        rw [hresI] at hsome
        simp only [Option.map_some'] at hsome
        have hh := Option.some.inj hsome
        rw [hresI] at hsound
        obtain ⟨hs, hi⟩ := hsound.1 q.1 q.2 rfl
        rw [← hh]
        exact ⟨hs, hi, intersects_ray_pos q.2 r len hi⟩

def c2t0 : Octree := Octree.new ⟨4, 4, 4⟩ ⟨⟨-4, -4, -4⟩, ⟨4, 4, 4⟩⟩

/-- A thin box hugging the negative-x side of the center plane. -/
def c2box : AABB :=
  ⟨⟨-(1 / 16777216), 1, 1⟩, ⟨-(1 / 67108864), 11 / 10, 11 / 10⟩⟩

/-- Octree storing only entity 3 at `c2box` (in the `(-,+,+)` child). -/
def c2s1 : Octree :=
  match Octree.insert 20 c2t0 ⟨3, c2box⟩ with
  | Res.ok p => p.2
  | _ => c2t0

/-- A ray starting within `f32::EPSILON` of the x splitting plane on the
negative side, heading diagonally positive. -/
def c2ray : Ray := Ray.new ⟨-(1 / 16777216), 1, 1⟩ ⟨1, 1, 1⟩

/-- C2 counterexample: the stored box is hit by the ray at a positive
distance, yet `raycast` returns `none` — the epsilon tie-break of
`octant_at` starts the march in the `(+,+,+)` octant and the march then
dead-ends without ever visiting the entity's `(-,+,+)` octant. -/
theorem c2_counterexample :
    Octree.raycast 100 c2s1 c2ray = Res.ok none ∧
    Octree.storedB c2s1 3 c2box = true ∧
    AABB.intersects_ray c2box c2ray = some (XQ.fin (3 / 67108864)) ∧
    XQ.lt (XQ.fin 0) (XQ.fin (3 / 67108864)) ∧
    Ray.goodDir c2ray :=
  ⟨by decide, by decide, by decide, by decide, by decide⟩

/-- Witness for C2 on the empty tree. -/
theorem c2_witness :
    (c2t0.root = NULL_INDEX → (none : Option Octree.RayHitInfo) = none) ∧
    (∀ h : Octree.RayHitInfo, (none : Option Octree.RayHitInfo) = some h →
       Octree.storedB c2t0 h.entity h.aabb = true ∧
       h.aabb.intersects_ray c2ray = some h.t ∧ XQ.lt (XQ.fin 0) h.t) :=
  c2_raycast_sound 5 c2t0 c2ray none (by decide)

/-- Witness for C7 on a concrete box and diagonal ray. -/
theorem c7_witness :
    (Ray.new ⟨0, 0, 0⟩ ⟨1, 1, 1⟩).goodDir ∧
    AABB.intersects_ray_raw ⟨⟨1, 1, 1⟩, ⟨2, 2, 2⟩⟩ (Ray.new ⟨0, 0, 0⟩ ⟨1, 1, 1⟩) =
      (specSlab ⟨⟨1, 1, 1⟩, ⟨2, 2, 2⟩⟩ (Ray.new ⟨0, 0, 0⟩ ⟨1, 1, 1⟩)).map
        (fun p => (XQ.fin p.1, XQ.fin p.2)) :=
  ⟨by decide, c7_slab_test _ _ (by decide)⟩

/-!
## Claim C5: the descent rule of `insert`
-/

/-- `get_or_create_node` never shrinks the arena, returns an in-range
slot, and (when the arena is not absurdly full) never returns
`NULL_INDEX`. -/
theorem get_or_create_props (t : Octree) (aabb : AABB) (parent idx : ℕ)
    (ta : Octree)
    (hrun : Octree.get_or_create_node t aabb parent = Res.ok (idx, ta)) :
    t.nodes.length ≤ ta.nodes.length ∧ idx < ta.nodes.length ∧
    (t.nodes.length < NULL_INDEX → idx ≠ NULL_INDEX) := by
  unfold Octree.get_or_create_node at hrun
  by_cases hi : t.idle = NULL_INDEX
  · rw [if_pos hi] at hrun
    have hinj := Res.ok.inj hrun
    obtain ⟨hidx, hta⟩ := Prod.mk.inj hinj
    rw [← hidx, ← hta]
    dsimp only
    rw [List.length_append]
    refine ⟨by omega, by simp, ?_⟩
    intro hlt heq
    omega
  · rw [if_neg hi] at hrun
    cases hg : t.nodes.get? t.idle with
    | none => rw [hg] at hrun; exact absurd hrun (by simp)
    | some nd0 =>
      rw [hg] at hrun
      dsimp only at hrun
      have hinj := Res.ok.inj hrun
      obtain ⟨hidx, hta⟩ := Prod.mk.inj hinj
      rw [← hidx, ← hta]
      dsimp only
      rw [List.length_set]
      have hlt : t.idle < t.nodes.length := by
        by_contra hge
        rw [List.get?_eq_none.mpr (Nat.le_of_not_lt hge)] at hg
        exact absurd hg (by simp)
      exact ⟨le_rfl, hlt, fun _ => hi⟩

/-- C5 (amended): exact decision rule at one visited live node `index`
holding `nd` during the `insert` descent.
(1) If the entity's box does not classify into a single octant of the
node, it is inserted into the node's local set.
(2) If it classifies into octant `o` and the child for `o` exists, the
descent continues into that child with NO extent test.
(3) If the child for `o` is absent and `min_leaf_extent` strictly
exceeds the sub-box extent on SOME axis, the entity is inserted into the
current node's local set.
(4) If the child for `o` is absent and the sub-box extent is at least
`min_leaf_extent` on EVERY axis (`>=`, not the claimed strict `>`), a
recycled or fresh arena slot is obtained, linked into `children[o]` with
`children_len` incremented, and the descent continues from it. -/
theorem c5_descent_step (e : OctreeEntity) (fuel : ℕ) (t : Octree)
    (index pidx octi : ℕ) (nb : AABB) (nd : OctreeNode)
    (hidx : index ≠ NULL_INDEX)
    (hnd : t.nodes.get? index = some nd) :
    ((e.aabb.subV nd.aabb.center).octant = none →
      Octree.insertLoop e (fuel+1) t index pidx octi nb =
        Res.ok ((entsInsert e nd.entities).1,
          { t with nodes := t.nodes.set index { nd with entities := (entsInsert e nd.entities).2 } })) ∧
    (∀ o, (e.aabb.subV nd.aabb.center).octant = some o →
      nd.childAt (OctreeNode.octant_to_index o) ≠ NULL_INDEX →
      Octree.insertLoop e (fuel+1) t index pidx octi nb =
        Octree.insertLoop e fuel t (nd.childAt (OctreeNode.octant_to_index o))
          index (OctreeNode.octant_to_index o) (nd.aabb.get_octant o)) ∧
    (∀ o, (e.aabb.subV nd.aabb.center).octant = some o →
      nd.childAt (OctreeNode.octant_to_index o) = NULL_INDEX →
      V3.cmpgtAny t.min_leaf_extent (nd.aabb.get_octant o).length = true →
      Octree.insertLoop e (fuel+2) t index pidx octi nb =
        Res.ok ((entsInsert e nd.entities).1,
          { t with nodes := t.nodes.set index { nd with entities := (entsInsert e nd.entities).2 } })) ∧
    (∀ o idx ta, (e.aabb.subV nd.aabb.center).octant = some o →
      nd.childAt (OctreeNode.octant_to_index o) = NULL_INDEX →
      V3.cmpgtAny t.min_leaf_extent (nd.aabb.get_octant o).length = false →
      t.nodes.length < NULL_INDEX →
      Octree.get_or_create_node t (nd.aabb.get_octant o) index =
        Res.ok (idx, ta) →
      idx ≠ NULL_INDEX ∧
      ∃ p, ta.nodes.get? index = some p ∧
        Octree.insertLoop e (fuel+2) t index pidx octi nb =
          Octree.insertLoop e (fuel+1)
            { ta with nodes := ta.nodes.set index { p with children_len := p.children_len + 1, children := p.children.set (OctreeNode.octant_to_index o) idx } }
            idx index (OctreeNode.octant_to_index o)
            (nd.aabb.get_octant o)) := by
  have hndg : t.nodes[index]? = some nd := by
    rw [← List.get?_eq_getElem?]; exact hnd
  refine ⟨?_, ?_, ?_, ?_⟩
  · intro ho
    simp [Octree.insertLoop, hidx, hndg, ho]
  · intro o ho hc
    simp [Octree.insertLoop, hidx, hndg, ho]
  · intro o ho hc hbig
    simp [Octree.insertLoop, hidx, hndg, ho, hc, hbig]
  · intro o idx ta ho hc hsmall hlen hgcn
    obtain ⟨hle, hidxlt, hnn⟩ :=
      get_or_create_props t (nd.aabb.get_octant o) index idx ta hgcn
    refine ⟨hnn hlen, ?_⟩
    have hlt : index < ta.nodes.length := by
      have : index < t.nodes.length := by
        by_contra hge
        rw [List.get?_eq_none.mpr (Nat.le_of_not_lt hge)] at hnd
        exact absurd hnd (by simp)
      omega
    cases hp : ta.nodes.get? index with
    | none =>
      exfalso
      have := List.get?_eq_none.mp hp
      omega
    | some p =>
      refine ⟨p, rfl, ?_⟩
      have hpg : ta.nodes[index]? = some p := by
        rw [← List.get?_eq_getElem?]; exact hp
      simp [Octree.insertLoop, hidx, hndg, ho, hc, hsmall, hgcn, hpg, hnn hlen]

def c5base : AABB := ⟨⟨-8, -8, -8⟩, ⟨8, 8, 8⟩⟩

/-- Fresh octree with `min_leaf_extent` exactly half the base extent, so
every first-level sub-box extent TIES `min_leaf_extent`. -/
def c5t0 : Octree := Octree.new ⟨8, 8, 8⟩ c5base

def c5e : OctreeEntity := ⟨5, ⟨⟨1, 1, 1⟩, ⟨2, 2, 2⟩⟩⟩

def c5s1 : Octree :=
  match Octree.insert 20 c5t0 c5e with
  | Res.ok p => p.2
  | _ => c5t0

/-- C5 counterexample to the claimed STRICT extent rule: the `(+,+,+)`
sub-box extent equals `min_leaf_extent` (so it is not strictly larger on
any axis), yet the descent still creates that child and stores the
entity below the root: the code stops only when `min_leaf_extent` is
strictly greater on some axis. -/
theorem c5_counterexample :
    Octree.insert 20 c5t0 c5e = Res.ok (true, c5s1) ∧
    (c5e.aabb.subV c5t0.base_aabb.center).octant = some ⟨true, true, true⟩ ∧
    (c5t0.base_aabb.get_octant ⟨true, true, true⟩).length =
      c5t0.min_leaf_extent ∧
    c5s1.nodes.length = 2 ∧
    c5s1.nodes.map (fun nd => nd.entities.map OctreeEntity.entity) =
      [[], [5]] :=
  ⟨by decide, by decide, by decide, by decide, by decide⟩

/-- A one-node octree used to witness the C5 step rule. -/
def c5w : Octree :=
  ⟨0, c5base, [OctreeNode.new c5base NULL_INDEX], ⟨8, 8, 8⟩, NULL_INDEX, 0⟩

def c5eC : OctreeEntity := ⟨6, ⟨⟨-1, -1, -1⟩, ⟨1, 1, 1⟩⟩⟩

/-- Witness for C5: a box straddling the root's center is inserted into
the root's local set. -/
theorem c5_witness :
    Octree.insertLoop c5eC 3 c5w 0 9 9 c5base =
      Res.ok ((entsInsert c5eC (OctreeNode.new c5base NULL_INDEX).entities).1,
        { c5w with nodes := c5w.nodes.set 0 { OctreeNode.new c5base NULL_INDEX with entities := (entsInsert c5eC (OctreeNode.new c5base NULL_INDEX).entities).2 } }) :=
  (c5_descent_step c5eC 2 c5w 0 9 9 c5base (OctreeNode.new c5base NULL_INDEX)
    (by decide) (by rfl)).1 (by decide)

/-!
## Claim C1: insert / remove round trip
-/

/-- Unfolding of `cmpgt(..).any() = false` into componentwise `≤`. -/
theorem cmpgtAny_false_iff (a b : V3) :
    V3.cmpgtAny a b = false ↔ a.x ≤ b.x ∧ a.y ≤ b.y ∧ a.z ≤ b.z := by
  simp [V3.cmpgtAny, not_lt, and_assoc]

/-- Every octant sub-box has half the extent of its box, on every axis. -/
theorem get_octant_length (a : AABB) (o : Oct) :
    (a.get_octant o).length = a.length.smul (1/2) := by
  rcases o with ⟨ox, oy, oz⟩
  cases ox <;> cases oy <;> cases oz <;>
    · simp only [AABB.get_octant, AABB.length, AABB.center_x, AABB.center_y,
        AABB.center_z, V3.sub, V3.smul, Bool.false_eq_true, eq_self_iff_true,
        if_true, if_false, V3.mk.injEq]
      refine ⟨by ring, by ring, by ring⟩

theorem minStep_length (a : AABB) :
    a.minStep.length = a.length.add a.length := by
  simp only [AABB.minStep, AABB.length, V3.sub, V3.add, V3.mk.injEq]
  refine ⟨by ring, by ring, by ring⟩

theorem maxStep_length (a : AABB) :
    a.maxStep.length = a.length.add a.length := by
  simp only [AABB.maxStep, AABB.length, V3.sub, V3.add, V3.mk.injEq]
  refine ⟨by ring, by ring, by ring⟩

/-- Half of a doubled vector. -/
theorem half_double (L : V3) : (L.add L).smul (1/2) = L := by
  obtain ⟨x, y, z⟩ := L
  simp only [V3.add, V3.smul, V3.mk.injEq]
  refine ⟨by ring, by ring, by ring⟩

/-- Growing a box to the hull keeps each extent at least as large. -/
theorem cmpgt_hull (m : V3) (a b : AABB)
    (h : V3.cmpgtAny m a.length = false) :
    V3.cmpgtAny m (a.extendHull b).length = false := by
  rw [cmpgtAny_false_iff] at h ⊢
  simp only [AABB.extendHull, AABB.length, V3.sub, V3.maxV, V3.minV] at h ⊢
  refine ⟨le_trans h.1 ?_, le_trans h.2.1 ?_, le_trans h.2.2 ?_⟩ <;>
    exact sub_le_sub (le_max_left _ _) (min_le_left _ _)

/-- An `extend_for` doubling step keeps each extent at least as large
(the extent is nonnegative for a valid box). -/
theorem cmpgt_extStep (m : V3) (a b : AABB) (hs : AABB.extStepRel a b)
    (hv : a.valid) (h : V3.cmpgtAny m a.length = false) :
    V3.cmpgtAny m b.length = false := by
  obtain ⟨h1, h2, h3⟩ := hv
  rw [cmpgtAny_false_iff] at h ⊢
  simp only [AABB.length, V3.sub] at h h1 h2 h3 ⊢
  cases hs with
  | inl hmin =>
    rw [hmin]
    simp only [AABB.minStep, AABB.length, V3.sub]
    refine ⟨by linarith [h.1], by linarith [h.2.1], by linarith [h.2.2]⟩
  | inr hmax =>
    rw [hmax]
    simp only [AABB.maxStep, AABB.length, V3.add, V3.sub]
    refine ⟨by linarith [h.1], by linarith [h.2.1], by linarith [h.2.2]⟩

/-- A doubling step preserves validity. -/
theorem extStep_valid {a b : AABB} (hs : AABB.extStepRel a b)
    (hv : a.valid) : b.valid := by
  cases hs with
  | inl h => rw [h]; exact AABB.minStep_valid hv
  | inr h => rw [h]; exact AABB.maxStep_valid hv

/-- The structural well-formedness used by the insert/remove round trip:
the root has no parent, children arrays have the fixed length 8,
`children_len` is zero exactly on childless nodes, a node with a child
has sub-boxes at least `min_leaf_extent` on every axis, and parent links
point back to a node holding the child. -/
structure Octree.WFI (t : Octree) : Prop where
  rootRange : t.root ≠ NULL_INDEX → t.root < t.nodes.length
  rootP : ∀ rn, t.root ≠ NULL_INDEX → t.nodes.get? t.root = some rn →
    rn.parent = NULL_INDEX
  chLen8 : ∀ i nd, t.nodes.get? i = some nd → nd.children.length = 8
  allNull : ∀ i nd, t.nodes.get? i = some nd →
    (∀ j, j < 8 → nd.childAt j = NULL_INDEX) → nd.children_len = 0
  slotLen : ∀ i nd j, t.nodes.get? i = some nd → j < 8 →
    nd.childAt j ≠ NULL_INDEX → nd.children_len ≠ 0
  slotBig : ∀ i nd j, t.nodes.get? i = some nd → j < 8 →
    nd.childAt j ≠ NULL_INDEX →
    V3.cmpgtAny t.min_leaf_extent
      ((nd.aabb.get_octant ⟨false, false, false⟩).length) = false
  backlink : ∀ i nd, t.nodes.get? i = some nd → nd.parent ≠ NULL_INDEX →
    ∃ pn, t.nodes.get? nd.parent = some pn ∧ ∃ j, j < 8 ∧ pn.childAt j = i

/-- An octree with an empty arena and no root is well-formed. -/
theorem WFI_nil (t : Octree) (h : t.nodes = []) (hr : t.root = NULL_INDEX) :
    Octree.WFI t := by
  have hg : ∀ i : ℕ, t.nodes.get? i = none := by
    intro i; rw [h]; rfl
  refine ⟨fun hc => absurd hr hc, ?_, ?_, ?_, ?_, ?_, ?_⟩
  · intro rn hr hc; rw [hg] at hc; exact absurd hc (by simp)
  · intro i nd hc; rw [hg] at hc; exact absurd hc (by simp)
  · intro i nd hc; rw [hg] at hc; exact absurd hc (by simp)
  · intro i nd j hc; rw [hg] at hc; exact absurd hc (by simp)
  · intro i nd j hc; rw [hg] at hc; exact absurd hc (by simp)
  · intro i nd hc; rw [hg] at hc; exact absurd hc (by simp)

/-- The inserted key is a member afterwards. -/
theorem entsContains_entsInsert_self (e : OctreeEntity) :
    ∀ l : List OctreeEntity, entsContains (entsInsert e l).2 e.entity = true
  | [] => by simp [entsInsert, entsContains]
  | a :: rest => by
    unfold entsInsert
    by_cases h1 : e.entity < a.entity
    · rw [if_pos h1]; simp [entsContains]
    · by_cases h2 : e.entity = a.entity
      · rw [if_neg h1, if_pos h2]
        simp [entsContains, h2]
      · rw [if_neg h1, if_neg h2]
        have ih := entsContains_entsInsert_self e rest
        simp only [entsContains, List.any_cons] at ih ⊢
        rw [ih]
        simp

/-- Re-inserting a key just inserted reports `false` and keeps the set. -/
theorem entsInsert_idem (e : OctreeEntity) :
    ∀ l : List OctreeEntity,
      entsInsert e (entsInsert e l).2 = (false, (entsInsert e l).2)
  | [] => by simp [entsInsert, lt_irrefl]
  | a :: rest => by
    by_cases h1 : e.entity < a.entity
    · have hin : entsInsert e (a :: rest) = (true, e :: a :: rest) := by
        unfold entsInsert; rw [if_pos h1]
      rw [hin]
      unfold entsInsert
      rw [if_neg (lt_irrefl _), if_pos rfl]
    · by_cases h2 : e.entity = a.entity
      · have hin : entsInsert e (a :: rest) = (false, a :: rest) := by
          unfold entsInsert; rw [if_neg h1, if_pos h2]
        rw [hin]
        unfold entsInsert
        rw [if_neg h1, if_pos h2]
      · have hin : entsInsert e (a :: rest) =
            ((entsInsert e rest).1, a :: (entsInsert e rest).2) := by
          simp only [entsInsert, if_neg h1, if_neg h2]
        rw [hin]
        have hin2 : entsInsert e (a :: (entsInsert e rest).2) =
            ((entsInsert e (entsInsert e rest).2).1,
              a :: (entsInsert e (entsInsert e rest).2).2) := by
          simp only [entsInsert, if_neg h1, if_neg h2]
        rw [hin2, entsInsert_idem e rest]

/-- Removing a key right after a successful insertion of it restores
the original set. -/
theorem entsRemove_entsInsert_true (e : OctreeEntity) :
    ∀ l : List OctreeEntity, (entsInsert e l).1 = true →
      entsRemove e.entity (entsInsert e l).2 = (true, l)
  | [], _ => by simp [entsInsert, entsRemove]
  | a :: rest, ht => by
    by_cases h1 : e.entity < a.entity
    · have hin : entsInsert e (a :: rest) = (true, e :: a :: rest) := by
        unfold entsInsert; rw [if_pos h1]
      rw [hin]
      unfold entsRemove
      rw [if_pos rfl]
    · by_cases h2 : e.entity = a.entity
      · have hin : entsInsert e (a :: rest) = (false, a :: rest) := by
          unfold entsInsert; rw [if_neg h1, if_pos h2]
        rw [hin] at ht
        exact absurd ht (by simp)
      · have hin : entsInsert e (a :: rest) =
            ((entsInsert e rest).1, a :: (entsInsert e rest).2) := by
          simp only [entsInsert, if_neg h1, if_neg h2]
        rw [hin] at ht ⊢
        dsimp only at ht ⊢
        have ih := entsRemove_entsInsert_true e rest ht
        have hne : ¬ a.entity = e.entity := fun hh => h2 hh.symm
        have hrm : entsRemove e.entity (a :: (entsInsert e rest).2) =
            ((entsRemove e.entity (entsInsert e rest).2).1,
              a :: (entsRemove e.entity (entsInsert e rest).2).2) := by
          simp only [entsRemove, if_neg hne]
        rw [hrm, ih]

/-- A successful set removal means the key was present. -/
theorem entsRemove_true (h : ℕ) :
    ∀ l : List OctreeEntity, (entsRemove h l).1 = true →
      entsContains l h = true
  | [] => by simp [entsRemove]
  | a :: rest => by
    intro ht
    unfold entsRemove at ht
    by_cases he : a.entity = h
    · simp [entsContains, he]
    · rw [if_neg he] at ht
      dsimp only at ht
      have ih := entsRemove_true h rest ht
      simp only [entsContains, List.any_cons] at ih ⊢
      rw [ih]
      simp

/-- The removal descent never changes `len`, the base bound or
`min_leaf_extent`. -/
theorem removeLoop_frame (entity : ℕ) (aabb : AABB) :
    ∀ (fuel : ℕ) (t : Octree) (index octi : ℕ) (r : Bool) (t1 : Octree),
      Octree.removeLoop entity aabb fuel t index octi = Res.ok (r, t1) →
      t1.len = t.len ∧ t1.base_aabb = t.base_aabb ∧
        t1.min_leaf_extent = t.min_leaf_extent
  | 0, t, index, octi, r, t1 => by
    intro h
    exact absurd h (by unfold Octree.removeLoop; simp)
  | fuel+1, t, index, octi, r, t1 => by
    intro h
    unfold Octree.removeLoop at h
    by_cases hn : index = NULL_INDEX
    · rw [if_pos hn] at h
      have hinj := Res.ok.inj h
      obtain ⟨-, ht1⟩ := Prod.mk.inj hinj
      rw [← ht1]
      exact ⟨rfl, rfl, rfl⟩
    · rw [if_neg hn] at h
      cases hg : t.nodes.get? index with
      | none => rw [hg] at h; exact absurd h (by simp)
      | some nd =>
        rw [hg] at h
        dsimp only at h
        by_cases hcl : nd.children_len = 0
        · rw [if_pos hcl] at h
          by_cases hemp : (entsRemove entity nd.entities).2 = []
          · rw [if_pos hemp] at h
            cases hid : Octree.idles_node
                { t with nodes := t.nodes.set index { nd with entities := (entsRemove entity nd.entities).2 } }
                index octi with
            | panic => rw [hid] at h; exact absurd h (by simp)
            | fuelOut => rw [hid] at h; exact absurd h (by simp)
            | ok t2 =>
              rw [hid] at h
              dsimp only at h
              have hinj := Res.ok.inj h
              obtain ⟨-, ht1⟩ := Prod.mk.inj hinj
              rw [← ht1]
              have hf := idles_node_frame _ index octi t2 hid
              exact hf
          · rw [if_neg hemp] at h
            have hinj := Res.ok.inj h
            obtain ⟨-, ht1⟩ := Prod.mk.inj hinj
            rw [← ht1]
            exact ⟨rfl, rfl, rfl⟩
        · rw [if_neg hcl] at h
          cases ho : (aabb.subV nd.aabb.center).octant with
          | some o =>
            rw [ho] at h
            exact removeLoop_frame entity aabb fuel t _ _ r t1 h
          | none =>
            rw [ho] at h
            dsimp only at h
            have hinj := Res.ok.inj h
            obtain ⟨-, ht1⟩ := Prod.mk.inj hinj
            rw [← ht1]
            exact ⟨rfl, rfl, rfl⟩

/-- A successful removal found the handle stored in some node. -/
theorem removeLoop_true_stored (entity : ℕ) (aabb : AABB) :
    ∀ (fuel : ℕ) (t : Octree) (index octi : ℕ) (t1 : Octree),
      Octree.removeLoop entity aabb fuel t index octi = Res.ok (true, t1) →
      ∃ i nd, t.nodes.get? i = some nd ∧
        entsContains nd.entities entity = true
  | 0, t, index, octi, t1 => by
    intro h
    exact absurd h (by unfold Octree.removeLoop; simp)
  | fuel+1, t, index, octi, t1 => by
    intro h
    unfold Octree.removeLoop at h
    by_cases hn : index = NULL_INDEX
    · rw [if_pos hn] at h
      have hinj := Res.ok.inj h
      exact absurd (Prod.mk.inj hinj).1 (by simp)
    · rw [if_neg hn] at h
      cases hg : t.nodes.get? index with
      | none => rw [hg] at h; exact absurd h (by simp)
      | some nd =>
        rw [hg] at h
        dsimp only at h
        by_cases hcl : nd.children_len = 0
        · rw [if_pos hcl] at h
          by_cases hemp : (entsRemove entity nd.entities).2 = []
          · rw [if_pos hemp] at h
            cases hid : Octree.idles_node
                { t with nodes := t.nodes.set index { nd with entities := (entsRemove entity nd.entities).2 } }
                index octi with
            | panic => rw [hid] at h; exact absurd h (by simp)
            | fuelOut => rw [hid] at h; exact absurd h (by simp)
            | ok t2 =>
              rw [hid] at h
              dsimp only at h
              have hinj := Res.ok.inj h
              have hr := (Prod.mk.inj hinj).1
              exact ⟨index, nd, hg, entsRemove_true entity nd.entities hr⟩
          · rw [if_neg hemp] at h
            have hinj := Res.ok.inj h
            have hr := (Prod.mk.inj hinj).1
            exact ⟨index, nd, hg, entsRemove_true entity nd.entities hr⟩
        · rw [if_neg hcl] at h
          cases ho : (aabb.subV nd.aabb.center).octant with
          | some o =>
            rw [ho] at h
            exact removeLoop_true_stored entity aabb fuel t _ _ t1 h
          | none =>
            rw [ho] at h
            dsimp only at h
            have hinj := Res.ok.inj h
            have hr := (Prod.mk.inj hinj).1
            exact ⟨index, nd, hg, entsRemove_true entity nd.entities hr⟩

/-- A stored handle has a positive node count. -/
theorem cnt_pos_of_stored (t : Octree) (i : ℕ) (nd : OctreeNode) (h : ℕ)
    (hg : t.nodes.get? i = some nd)
    (hc : entsContains nd.entities h = true) :
    Octree.cntHandle t h ≠ 0 := by
  have hmem : nd ∈ t.nodes := List.get?_mem hg
  intro h0
  unfold Octree.cntHandle at h0
  rw [List.length_eq_zero] at h0
  have hmf : nd ∈ List.filter (fun nd => entsContains nd.entities h) t.nodes :=
    List.mem_filter.mpr ⟨hmem, hc⟩
  rw [h0] at hmf
  exact absurd hmf (List.not_mem_nil _)

theorem getD_set_self (v d : ℕ) :
    ∀ (l : List ℕ) (j : ℕ), j < l.length → (l.set j v).getD j d = v
  | [], j => by intro hj; exact absurd hj (by simp)
  | a :: tl, 0 => by intro _; rfl
  | a :: tl, j+1 => by
    intro hj
    exact getD_set_self v d tl j (by simpa using hj)

theorem getD_set_ne (v d : ℕ) :
    ∀ (l : List ℕ) (i j : ℕ), i ≠ j → (l.set i v).getD j d = l.getD j d
  | [], i, j => by intro _; rfl
  | a :: tl, 0, 0 => by intro h; exact absurd rfl h
  | a :: tl, 0, j+1 => by intro _; rfl
  | a :: tl, i+1, 0 => by intro _; rfl
  | a :: tl, i+1, j+1 => by
    intro h
    exact getD_set_ne v d tl i j (fun hh => h (by rw [hh]))

theorem getD_replicate (d : ℕ) :
    ∀ (n j : ℕ), (List.replicate n d).getD j d = d
  | 0, j => by cases j <;> rfl
  | n+1, 0 => rfl
  | n+1, j+1 => getD_replicate d n j

/-- The hull covers the added box. -/
theorem hull_covers (a b : AABB) : AABB.covers (a.extendHull b) b := by
  refine ⟨⟨?_, ?_, ?_⟩, ⟨?_, ?_, ?_⟩⟩ <;>
    simp [AABB.extendHull, V3.minV, V3.maxV, min_le_right, le_max_right]

/-- The hull of a valid box is valid. -/
theorem hull_valid (a b : AABB) (hv : a.valid) : (a.extendHull b).valid := by
  obtain ⟨h1, h2, h3⟩ := hv
  refine ⟨?_, ?_, ?_⟩ <;>
    simp only [AABB.extendHull, V3.minV, V3.maxV]
  · exact lt_of_le_of_lt (min_le_left _ _) (lt_of_lt_of_le h1 (le_max_left _ _))
  · exact lt_of_le_of_lt (min_le_left _ _) (lt_of_lt_of_le h2 (le_max_left _ _))
  · exact lt_of_le_of_lt (min_le_left _ _) (lt_of_lt_of_le h3 (le_max_left _ _))

/-- A box covering `other` fails the first loop guard. -/
theorem covers_cond1 (b other : AABB) (h : AABB.covers b other) :
    AABB.cond1 b other = false := by
  obtain ⟨⟨h1, h2, h3⟩, -⟩ := h
  simp [AABB.cond1, not_lt, h1, h2, h3]

/-- A box covering `other` fails the second loop guard. -/
theorem covers_cond2 (b other : AABB) (h : AABB.covers b other) :
    AABB.cond2 b other = false := by
  obtain ⟨-, h1, h2, h3⟩ := h
  simp [AABB.cond2, not_lt, h1, h2, h3]

theorem extLoop1_covered (other b : AABB) (fuel : ℕ)
    (h : AABB.cond1 b other = false) :
    AABB.extLoop1 other fuel b = some (b, []) := by
  cases fuel <;> · unfold AABB.extLoop1; rw [h]; rfl

theorem extLoop2_covered (other b : AABB) (fuel : ℕ)
    (h : AABB.cond2 b other = false) :
    AABB.extLoop2 other fuel b = some (b, []) := by
  cases fuel <;> · unfold AABB.extLoop2; rw [h]; rfl

/-- `extend_for` on an already covered box exits at once: no callback is
invoked and the box is unchanged. -/
theorem extend_for_covered (fuel : ℕ) (b other : AABB)
    (h : AABB.covers b other) :
    AABB.extend_for fuel b other = some (b, []) := by
  unfold AABB.extend_for
  rw [extLoop1_covered other b fuel (covers_cond1 b other h)]
  dsimp only
  rw [extLoop2_covered other b fuel (covers_cond2 b other h)]
  rfl

theorem extLoop1_tr_len (other : AABB) :
    ∀ (fuel : ℕ) (a a1 : AABB) (tr : List AABB),
      AABB.extLoop1 other fuel a = some (a1, tr) → tr.length ≤ fuel
  | 0, a, a1, tr => by
    intro h
    unfold AABB.extLoop1 at h
    by_cases hc : AABB.cond1 a other = true
    · rw [hc] at h; exact absurd h (by simp)
    · rw [Bool.not_eq_true] at hc
      rw [hc] at h
      simp only [Bool.false_eq_true, if_false] at h
      obtain ⟨-, htr⟩ := Prod.mk.inj (Option.some.inj h)
      rw [← htr]
      exact le_refl _
  | fuel+1, a, a1, tr => by
    intro h
    unfold AABB.extLoop1 at h
    by_cases hc : AABB.cond1 a other = true
    · rw [hc] at h
      simp only [if_true] at h
      cases hrec : AABB.extLoop1 other fuel (AABB.minStep a) with
      | none => rw [hrec] at h; exact absurd h (by simp)
      | some p =>
        rw [hrec] at h
        simp only [Option.map_some'] at h
        obtain ⟨-, htr⟩ := Prod.mk.inj (Option.some.inj h)
        rw [← htr]
        have ih := extLoop1_tr_len other fuel (AABB.minStep a) p.1 p.2 (by rw [hrec])
        simpa using Nat.succ_le_succ ih
    · rw [Bool.not_eq_true] at hc
      rw [hc] at h
      simp only [Bool.false_eq_true, if_false] at h
      obtain ⟨-, htr⟩ := Prod.mk.inj (Option.some.inj h)
      rw [← htr]
      exact Nat.zero_le _

theorem extLoop2_tr_len (other : AABB) :
    ∀ (fuel : ℕ) (a a1 : AABB) (tr : List AABB),
      AABB.extLoop2 other fuel a = some (a1, tr) → tr.length ≤ fuel
  | 0, a, a1, tr => by
    intro h
    unfold AABB.extLoop2 at h
    by_cases hc : AABB.cond2 a other = true
    · rw [hc] at h; exact absurd h (by simp)
    · rw [Bool.not_eq_true] at hc
      rw [hc] at h
      simp only [Bool.false_eq_true, if_false] at h
      obtain ⟨-, htr⟩ := Prod.mk.inj (Option.some.inj h)
      rw [← htr]
      exact le_refl _
  | fuel+1, a, a1, tr => by
    intro h
    unfold AABB.extLoop2 at h
    by_cases hc : AABB.cond2 a other = true
    · rw [hc] at h
      simp only [if_true] at h
      cases hrec : AABB.extLoop2 other fuel (AABB.maxStep a) with
      | none => rw [hrec] at h; exact absurd h (by simp)
      | some p =>
        rw [hrec] at h
        simp only [Option.map_some'] at h
        obtain ⟨-, htr⟩ := Prod.mk.inj (Option.some.inj h)
        rw [← htr]
        have ih := extLoop2_tr_len other fuel (AABB.maxStep a) p.1 p.2 (by rw [hrec])
        simpa using Nat.succ_le_succ ih
    · rw [Bool.not_eq_true] at hc
      rw [hc] at h
      simp only [Bool.false_eq_true, if_false] at h
      obtain ⟨-, htr⟩ := Prod.mk.inj (Option.some.inj h)
      rw [← htr]
      exact Nat.zero_le _

/-- Shape of a successful `extend_for` run: the final box covers the
argument, the callback trace is a chain of doubling steps from the
starting box ending at the final box, validity is preserved, and the
trace is bounded by the fuel. -/
theorem extend_for_covers (fuel : ℕ) (a other r : AABB) (tr : List AABB)
    (h : AABB.extend_for fuel a other = some (r, tr)) :
    AABB.covers r other ∧ List.Chain AABB.extStepRel a tr ∧
    tr.getLastD a = r ∧ (a.valid → r.valid) ∧ tr.length ≤ fuel + fuel := by
  unfold AABB.extend_for at h
  cases h1 : AABB.extLoop1 other fuel a with
  | none => rw [h1] at h; exact absurd h (by simp)
  | some p1 =>
    rw [h1] at h
    obtain ⟨a1, tr1⟩ := p1
    dsimp only at h
    cases h2 : AABB.extLoop2 other fuel a1 with
    | none => rw [h2] at h; exact absurd h (by simp)
    | some p2 =>
      rw [h2] at h
      obtain ⟨a2, tr2⟩ := p2
      dsimp only at h
      obtain ⟨hr, htr⟩ := Prod.mk.inj (Option.some.inj h)
      obtain ⟨hc1, hl1, hmax1, hcond1, hv1⟩ := AABB.extLoop1_spec other fuel a a1 tr1 h1
      obtain ⟨hc2, hl2, hmin2, hcond2, hv2⟩ := AABB.extLoop2_spec other fuel a1 a2 tr2 h2
      subst hr htr
      refine ⟨⟨?_, ?_⟩, ?_, ?_, ?_, ?_⟩
      · rw [hmin2]
        simp only [AABB.cond1, Bool.or_eq_false_iff,
          decide_eq_false_iff_not, not_lt] at hcond1
        exact ⟨hcond1.1.1, hcond1.1.2, hcond1.2⟩
      · simp only [AABB.cond2, Bool.or_eq_false_iff,
          decide_eq_false_iff_not, not_lt] at hcond2
        exact ⟨hcond2.1.1, hcond2.1.2, hcond2.2⟩
      · rw [← hl1] at hc2
        exact AABB.chain_append_of AABB.extStepRel tr1 a tr2 hc1 hc2
      · rw [AABB.getLastD_append_d, hl1, hl2]
      · intro hav
        exact hv2 (hv1 hav)
      · rw [List.length_append]
        exact Nat.add_le_add (extLoop1_tr_len other fuel a a1 tr1 h1)
          (extLoop2_tr_len other fuel a1 a2 tr2 h2)

/-- With no idle node, `get_or_create_node` appends a fresh node. -/
theorem get_or_create_nullidle (t : Octree) (aabb : AABB) (parent : ℕ)
    (h : t.idle = NULL_INDEX) :
    Octree.get_or_create_node t aabb parent =
      Res.ok (t.nodes.length,
        { t with nodes := t.nodes ++ [OctreeNode.new aabb parent] }) := by
  unfold Octree.get_or_create_node
  rw [if_pos h]

theorem get?_set_of_ne {α : Type} (v : α) :
    ∀ (l : List α) (i j : ℕ), i ≠ j → (l.set i v).get? j = l.get? j
  | [], i, j => by intro _; rfl
  | a :: tl, 0, 0 => by intro h; exact absurd rfl h
  | a :: tl, 0, j+1 => by intro _; rfl
  | a :: tl, i+1, 0 => by intro _; rfl
  | a :: tl, i+1, j+1 => by
    intro h
    exact get?_set_of_ne v tl i j (fun hh => h (by rw [hh]))

theorem get?_set_lt {α : Type} (v : α) :
    ∀ (l : List α) (i : ℕ), i < l.length → (l.set i v).get? i = some v
  | [], i => by intro hi; exact absurd hi (by simp)
  | a :: tl, 0 => by intro _; rfl
  | a :: tl, i+1 => by
    intro hi
    exact get?_set_lt v tl i (by simpa using hi)

/-- Per-node preservation used by the retrace argument: looked-up nodes
keep their box, their non-null child slots, and a nonzero child count. -/
def Octree.framePres (t t2 : Octree) : Prop :=
  ∀ i nd0, t.nodes.get? i = some nd0 → ∃ nd1, t2.nodes.get? i = some nd1 ∧
    nd1.aabb = nd0.aabb ∧
    (∀ j, nd0.childAt j ≠ NULL_INDEX → nd1.childAt j = nd0.childAt j) ∧
    (nd0.children_len ≠ 0 → nd1.children_len ≠ 0)

/-- As `framePres`, and additionally every node keeps its entity set. -/
def Octree.contentPres (t t2 : Octree) : Prop :=
  ∀ i nd0, t.nodes.get? i = some nd0 → ∃ nd1, t2.nodes.get? i = some nd1 ∧
    nd1.aabb = nd0.aabb ∧ nd1.entities = nd0.entities ∧
    (∀ j, nd0.childAt j ≠ NULL_INDEX → nd1.childAt j = nd0.childAt j) ∧
    (nd0.children_len ≠ 0 → nd1.children_len ≠ 0)

theorem framePres_refl (t : Octree) : Octree.framePres t t :=
  fun i nd0 h => ⟨nd0, h, rfl, fun _ _ => rfl, fun hh => hh⟩

theorem contentPres_refl (t : Octree) : Octree.contentPres t t :=
  fun i nd0 h => ⟨nd0, h, rfl, rfl, fun _ _ => rfl, fun hh => hh⟩

theorem framePres_trans {t1 t2 t3 : Octree}
    (h12 : Octree.framePres t1 t2) (h23 : Octree.framePres t2 t3) :
    Octree.framePres t1 t3 := by
  intro i nd0 hg
  obtain ⟨nd1, hg1, ha1, hc1, hl1⟩ := h12 i nd0 hg
  obtain ⟨nd2, hg2, ha2, hc2, hl2⟩ := h23 i nd1 hg1
  refine ⟨nd2, hg2, ha2.trans ha1, ?_, fun hh => hl2 (hl1 hh)⟩
  intro j hj
  rw [hc2 j, hc1 j hj]
  rw [hc1 j hj]
  exact hj

theorem contentPres_trans {t1 t2 t3 : Octree}
    (h12 : Octree.contentPres t1 t2) (h23 : Octree.contentPres t2 t3) :
    Octree.contentPres t1 t3 := by
  intro i nd0 hg
  obtain ⟨nd1, hg1, ha1, he1, hc1, hl1⟩ := h12 i nd0 hg
  obtain ⟨nd2, hg2, ha2, he2, hc2, hl2⟩ := h23 i nd1 hg1
  refine ⟨nd2, hg2, ha2.trans ha1, he2.trans he1, ?_, fun hh => hl2 (hl1 hh)⟩
  intro j hj
  rw [hc2 j, hc1 j hj]
  rw [hc1 j hj]
  exact hj

theorem contentPres_frame {t1 t2 : Octree}
    (h : Octree.contentPres t1 t2) : Octree.framePres t1 t2 := by
  intro i nd0 hg
  obtain ⟨nd1, hg1, ha1, -, hc1, hl1⟩ := h i nd0 hg
  exact ⟨nd1, hg1, ha1, hc1, hl1⟩

theorem octant_to_index_lt (o : Oct) : OctreeNode.octant_to_index o < 8 := by
  rcases o with ⟨x, y, z⟩
  cases x <;> cases y <;> cases z <;> decide

/-- One `try_extend` callback step preserves well-formedness: the new
root is a fresh node holding the old root in the octant slot dictated by
the doubled bound, and every pre-existing node keeps its content. -/
theorem extendStep_wf (t : Octree) (cur : AABB) (t2 : Octree)
    (hWF : Octree.WFI t) (hidle : t.idle = NULL_INDEX)
    (hroot : t.root ≠ NULL_INDEX)
    (hstep : AABB.extStepRel t.base_aabb cur)
    (hv : t.base_aabb.valid)
    (hbase : V3.cmpgtAny t.min_leaf_extent t.base_aabb.length = false)
    (hsp : t.nodes.length < NULL_INDEX)
    (hrun : Octree.extendStep t cur = Res.ok t2) :
    Octree.WFI t2 ∧ t2.idle = NULL_INDEX ∧ t2.root ≠ NULL_INDEX ∧
    t2.base_aabb = cur ∧ t2.base_aabb.valid ∧
    V3.cmpgtAny t2.min_leaf_extent t2.base_aabb.length = false ∧
    t2.len = t.len ∧ t2.min_leaf_extent = t.min_leaf_extent ∧
    t2.nodes.length = t.nodes.length + 1 ∧
    Octree.contentPres t t2 := by
  have hrootlt : t.root < t.nodes.length := hWF.rootRange hroot
  have hrootN : t.root ≠ t.nodes.length := Nat.ne_of_lt hrootlt
  unfold Octree.extendStep at hrun
  rw [get_or_create_nullidle t cur NULL_INDEX hidle] at hrun
  dsimp only at hrun
  have happ : (t.nodes ++ [OctreeNode.new cur NULL_INDEX]).get? t.root =
      t.nodes.get? t.root := List.get?_append hrootlt
  rw [happ] at hrun
  cases hgr : t.nodes.get? t.root with
  | none => rw [hgr] at hrun; exact absurd hrun (by simp)
  | some rootNd =>
    rw [hgr] at hrun
    dsimp only at hrun
    rw [List.get?_concat_length] at hrun
    dsimp only at hrun
    cases hoct : (rootNd.aabb.subV (OctreeNode.new cur NULL_INDEX).aabb.center).octant with
    | none => rw [hoct] at hrun; exact absurd hrun (by simp)
    | some o =>
      rw [hoct] at hrun
      dsimp only at hrun
      rw [get?_set_of_ne _ _ t.root t.nodes.length hrootN,
        List.get?_concat_length] at hrun
      dsimp only at hrun
      have ht2 := Res.ok.inj hrun
      set N := t.nodes.length with hN
      set j := OctreeNode.octant_to_index o with hj
      have hjlt : j < 8 := octant_to_index_lt o
      -- the three record classes of the result arena
      have hlen1 : ((t.nodes ++ [OctreeNode.new cur NULL_INDEX]).set t.root
          { rootNd with parent := N }).length = N + 1 := by
        rw [List.length_set, List.length_append]
        rfl
      have hgN : t2.nodes.get? N = some
          { OctreeNode.new cur NULL_INDEX with
              children_len := (OctreeNode.new cur NULL_INDEX).children_len + 1,
              children := (OctreeNode.new cur NULL_INDEX).children.set j t.root } := by
        rw [← ht2]
        dsimp only
        exact get?_set_lt _ _ N (by rw [hlen1]; omega)
      have hgR : t2.nodes.get? t.root = some { rootNd with parent := N } := by
        rw [← ht2]
        dsimp only
        rw [get?_set_of_ne _ _ N t.root (Ne.symm hrootN)]
        rw [get?_set_lt _ _ t.root (by rw [List.length_append]; omega)]
      have hgOther : ∀ i, i ≠ t.root → i ≠ N →
          t2.nodes.get? i = t.nodes.get? i := by
        intro i hir hiN
        rw [← ht2]
        dsimp only
        rw [get?_set_of_ne _ _ N i (Ne.symm hiN),
          get?_set_of_ne _ _ t.root i (Ne.symm hir)]
        by_cases hilt : i < t.nodes.length
        · exact List.get?_append hilt
        · rw [List.get?_eq_none.mpr (Nat.le_of_not_lt hilt)]
          rw [List.get?_eq_none.mpr]
          rw [List.length_append]
          simp only [List.length_singleton]
          omega
      have hroot2 : t2.root = N := by rw [← ht2]
      have hbase2 : t2.base_aabb = cur := by rw [← ht2]
      have hminl2 : t2.min_leaf_extent = t.min_leaf_extent := by rw [← ht2]
      have hlen2 : t2.len = t.len := by rw [← ht2]
      have hidle2 : t2.idle = NULL_INDEX := by rw [← ht2]; exact hidle
      have hnodes2 : t2.nodes.length = t.nodes.length + 1 := by
        rw [← ht2]
        dsimp only
        rw [List.length_set, hlen1]
      have hNne : N ≠ NULL_INDEX := Nat.ne_of_lt hsp
      -- half of the doubled bound is the previous bound
      have hhalf : V3.cmpgtAny t.min_leaf_extent
          ((cur.get_octant ⟨false, false, false⟩).length) = false := by
        rw [get_octant_length]
        cases hstep with
        | inl hmin =>
          rw [hmin, minStep_length, half_double]
          exact hbase
        | inr hmax =>
          rw [hmax, maxStep_length, half_double]
          exact hbase
      -- child-slot values of the new root
      have hchN : ∀ j', (({ OctreeNode.new cur NULL_INDEX with
          children_len := (OctreeNode.new cur NULL_INDEX).children_len + 1,
          children := (OctreeNode.new cur NULL_INDEX).children.set j t.root }) :
            OctreeNode).childAt j' = if j' = j then t.root else NULL_INDEX := by
        intro j'
        by_cases hjj : j' = j
        · rw [if_pos hjj, hjj]
          exact getD_set_self _ _ _ j (by simpa [OctreeNode.new] using hjlt)
        · rw [if_neg hjj]
          unfold OctreeNode.childAt
          dsimp only
          rw [getD_set_ne _ _ _ j j' (fun hh => hjj hh.symm)]
          exact getD_replicate NULL_INDEX 8 j'
      refine ⟨⟨?_, ?_, ?_, ?_, ?_, ?_, ?_⟩, hidle2, ?_, hbase2, ?_, ?_, hlen2, hminl2, hnodes2, ?_⟩
      · -- rootRange
        intro _
        rw [hroot2, hnodes2]
        omega
      · -- rootP
        intro rn _ hgrn
        rw [hroot2] at hgrn
        rw [hgN] at hgrn
        rw [← Option.some.inj hgrn]
        rfl
      · -- chLen8
        intro i nd hg
        by_cases hiN : i = N
        · rw [hiN, hgN] at hg
          rw [← Option.some.inj hg]
          simp [OctreeNode.new]
        · by_cases hir : i = t.root
          · rw [hir, hgR] at hg
            rw [← Option.some.inj hg]
            exact hWF.chLen8 t.root rootNd hgr
          · rw [hgOther i hir hiN] at hg
            exact hWF.chLen8 i nd hg
      · -- allNull
        intro i nd hg hall
        by_cases hiN : i = N
        · exfalso
          rw [hiN, hgN] at hg
          have := hall j hjlt
          rw [← Option.some.inj hg] at this
          rw [hchN j] at this
          rw [if_pos rfl] at this
          exact hroot this
        · by_cases hir : i = t.root
          · rw [hir, hgR] at hg
            rw [← Option.some.inj hg]
            refine hWF.allNull t.root rootNd hgr ?_
            intro j' hj'
            have := hall j' hj'
            rw [← Option.some.inj hg] at this
            exact this
          · rw [hgOther i hir hiN] at hg
            exact hWF.allNull i nd hg hall
      · -- slotLen
        intro i nd j' hg hj' hne
        by_cases hiN : i = N
        · rw [hiN, hgN] at hg
          rw [← Option.some.inj hg]
          simp [OctreeNode.new]
        · by_cases hir : i = t.root
          · rw [hir, hgR] at hg
            rw [← Option.some.inj hg]
            rw [← Option.some.inj hg] at hne
            exact hWF.slotLen t.root rootNd j' hgr hj' hne
          · rw [hgOther i hir hiN] at hg
            exact hWF.slotLen i nd j' hg hj' hne
      · -- slotBig
        intro i nd j' hg hj' hne
        rw [hminl2]
        by_cases hiN : i = N
        · rw [hiN, hgN] at hg
          rw [← Option.some.inj hg]
          dsimp only
          exact hhalf
        · by_cases hir : i = t.root
          · rw [hir, hgR] at hg
            rw [← Option.some.inj hg] at hne ⊢
            exact hWF.slotBig t.root rootNd j' hgr hj' hne
          · rw [hgOther i hir hiN] at hg
            exact hWF.slotBig i nd j' hg hj' hne
      · -- backlink
        intro i nd hg hp
        by_cases hiN : i = N
        · exfalso
          rw [hiN, hgN] at hg
          rw [← Option.some.inj hg] at hp
          exact hp rfl
        · by_cases hir : i = t.root
          · rw [hir, hgR] at hg
            rw [← Option.some.inj hg]
            dsimp only
            refine ⟨_, hgN, j, hjlt, ?_⟩
            rw [hchN j, if_pos rfl, hir]
          · rw [hgOther i hir hiN] at hg
            obtain ⟨pn, hgp, j', hj', hsl⟩ := hWF.backlink i nd hg hp
            have hplt : nd.parent < t.nodes.length := by
              by_contra hge
              rw [List.get?_eq_none.mpr (Nat.le_of_not_lt hge)] at hgp
              exact absurd hgp (by simp)
            have hpN : nd.parent ≠ N := Nat.ne_of_lt hplt
            by_cases hpr : nd.parent = t.root
            · refine ⟨{ rootNd with parent := N }, by rw [hpr]; exact hgR, j', hj', ?_⟩
              rw [hpr] at hgp
              rw [hgr] at hgp
              rw [← Option.some.inj hgp] at hsl
              exact hsl
            · refine ⟨pn, ?_, j', hj', hsl⟩
              rw [hgOther nd.parent hpr hpN]
              exact hgp
      · -- new root index nonnull
        rw [hroot2]
        exact hNne
      · -- validity of the doubled bound
        rw [hbase2]
        exact extStep_valid hstep hv
      · -- the doubled bound still dominates min_leaf_extent
        rw [hbase2, hminl2]
        exact cmpgt_extStep t.min_leaf_extent t.base_aabb cur hstep hv hbase
      · -- content preservation
        intro i nd0 hg
        have hilt : i < t.nodes.length := by
          by_contra hge
          rw [List.get?_eq_none.mpr (Nat.le_of_not_lt hge)] at hg
          exact absurd hg (by simp)
        have hiN : i ≠ N := Nat.ne_of_lt hilt
        by_cases hir : i = t.root
        · subst hir
          rw [hgr] at hg
          rw [← Option.some.inj hg]
          exact ⟨{ rootNd with parent := N }, hgR, rfl, rfl,
            fun _ _ => rfl, fun hh => hh⟩
        · exact ⟨nd0, by rw [hgOther i hir hiN]; exact hg, rfl, rfl,
            fun _ _ => rfl, fun hh => hh⟩

theorem WFI_base_update (t : Octree) (b : AABB) (h : Octree.WFI t) :
    Octree.WFI { t with base_aabb := b } :=
  ⟨h.rootRange, h.rootP, h.chLen8, h.allNull, h.slotLen, h.slotBig, h.backlink⟩

theorem extendFold_wf :
    ∀ (trace : List AABB) (t t2 : Octree),
      Octree.WFI t → t.idle = NULL_INDEX → t.root ≠ NULL_INDEX →
      List.Chain AABB.extStepRel t.base_aabb trace →
      t.base_aabb.valid →
      V3.cmpgtAny t.min_leaf_extent t.base_aabb.length = false →
      t.nodes.length + trace.length ≤ NULL_INDEX →
      Octree.extendFold t trace = Res.ok t2 →
      Octree.WFI t2 ∧ t2.idle = NULL_INDEX ∧ t2.root ≠ NULL_INDEX ∧
      t2.base_aabb = trace.getLastD t.base_aabb ∧ t2.base_aabb.valid ∧
      V3.cmpgtAny t2.min_leaf_extent t2.base_aabb.length = false ∧
      t2.len = t.len ∧ t2.min_leaf_extent = t.min_leaf_extent ∧
      t2.nodes.length = t.nodes.length + trace.length ∧
      Octree.contentPres t t2
  | [], t, t2 => by
    intro hWF hidle hroot hchain hv hbase hlen hrun
    unfold Octree.extendFold at hrun
    have ht2 := Res.ok.inj hrun
    rw [← ht2]
    exact ⟨hWF, hidle, hroot, rfl, hv, hbase, rfl, rfl, by simp,
      contentPres_refl t⟩
  | cur :: rest, t, t2 => by
    intro hWF hidle hroot hchain hv hbase hlen hrun
    unfold Octree.extendFold at hrun
    cases hst : Octree.extendStep t cur with
    | panic => rw [hst] at hrun; exact absurd hrun (by simp)
    | fuelOut => rw [hst] at hrun; exact absurd hrun (by simp)
    | ok t1 =>
      rw [hst] at hrun
      dsimp only at hrun
      rcases hchain with _ | ⟨hrel, hchain1⟩
      obtain ⟨hWF1, hidle1, hroot1, hb1, hv1, hbase1, hlen1, hml1, hn1, hcp1⟩ :=
        extendStep_wf t cur t1 hWF hidle hroot hrel hv hbase
          (by simp only [List.length_cons] at hlen; omega) hst
      have ih := extendFold_wf rest t1 t2 hWF1 hidle1 hroot1
        (by rw [hb1]; exact hchain1) hv1 hbase1
        (by rw [hn1]; simp only [List.length_cons] at hlen; omega) hrun
      obtain ⟨hWF2, hidle2, hroot2, hb2, hv2, hbase2, hlen2, hml2, hn2, hcp2⟩ := ih
      refine ⟨hWF2, hidle2, hroot2, ?_, hv2, hbase2, by rw [hlen2, hlen1],
        by rw [hml2, hml1], ?_, contentPres_trans hcp1 hcp2⟩
      · rw [hb2, hb1, List.getLastD_cons]
      · rw [hn2, hn1, List.length_cons]
        omega

/-- `try_extend` preserves well-formedness, never loses content, and
afterwards the base bound covers the requested box. -/
theorem try_extend_wf (fuel : ℕ) (t : Octree) (aabb : AABB) (ta : Octree)
    (hWF : Octree.WFI t) (hidle : t.idle = NULL_INDEX)
    (hv : t.base_aabb.valid)
    (hbase : V3.cmpgtAny t.min_leaf_extent t.base_aabb.length = false)
    (hsp : t.nodes.length + (fuel + fuel) ≤ NULL_INDEX)
    (hrun : Octree.try_extend fuel t aabb = Res.ok ta) :
    Octree.WFI ta ∧ ta.idle = NULL_INDEX ∧
    ta.min_leaf_extent = t.min_leaf_extent ∧ ta.len = t.len ∧
    ta.base_aabb.valid ∧
    V3.cmpgtAny ta.min_leaf_extent ta.base_aabb.length = false ∧
    AABB.covers ta.base_aabb aabb ∧
    ta.nodes.length ≤ t.nodes.length + (fuel + fuel) ∧
    (t.root = NULL_INDEX → ta.root = NULL_INDEX ∧ ta.nodes = t.nodes) ∧
    (t.root ≠ NULL_INDEX → ta.root ≠ NULL_INDEX) ∧
    Octree.contentPres t ta := by
  unfold Octree.try_extend at hrun
  by_cases hr : t.root = NULL_INDEX
  · rw [if_pos hr] at hrun
    have hta := Res.ok.inj hrun
    rw [← hta]
    refine ⟨WFI_base_update t _ hWF, hidle, rfl, rfl,
      hull_valid _ _ hv, cmpgt_hull _ _ _ hbase, hull_covers _ _,
      by simp, fun _ => ⟨hr, rfl⟩, fun hc => absurd hr hc, ?_⟩
    intro i nd0 hg
    exact ⟨nd0, hg, rfl, rfl, fun _ _ => rfl, fun hh => hh⟩
  · rw [if_neg hr] at hrun
    cases hef : AABB.extend_for fuel t.base_aabb aabb with
    | none => rw [hef] at hrun; exact absurd hrun (by simp)
    | some p =>
      rw [hef] at hrun
      obtain ⟨r, tr⟩ := p
      dsimp only at hrun
      obtain ⟨hcov, hchain, hlast, hvimp, htrlen⟩ :=
        extend_for_covers fuel t.base_aabb aabb r tr hef
      obtain ⟨hWF2, hidle2, hroot2, hb2, hv2, hbase2, hlen2, hml2, hn2, hcp2⟩ :=
        extendFold_wf tr t ta hWF hidle hr hchain hv hbase (by omega) hrun
      refine ⟨hWF2, hidle2, hml2, hlen2, hv2, hbase2, ?_, by omega,
        fun hc => absurd hc hr, fun _ => hroot2, hcp2⟩
      rw [hb2, hlast]
      exact hcov

/-- Replacing one node's entity set preserves structural
well-formedness. -/
theorem WFI_set_entities (t : Octree) (i : ℕ) (nd : OctreeNode)
    (l : List OctreeEntity) (hWF : Octree.WFI t)
    (hg : t.nodes.get? i = some nd) :
    Octree.WFI { t with nodes := t.nodes.set i { nd with entities := l } } := by
  have hilt : i < t.nodes.length := by
    by_contra hge
    rw [List.get?_eq_none.mpr (Nat.le_of_not_lt hge)] at hg
    exact absurd hg (by simp)
  have hq : ∀ q, q ≠ i →
      (t.nodes.set i { nd with entities := l }).get? q = t.nodes.get? q :=
    fun q hq => get?_set_of_ne _ _ i q (fun hh => hq hh.symm)
  have hqi : (t.nodes.set i { nd with entities := l }).get? i =
      some { nd with entities := l } := get?_set_lt _ _ i hilt
  refine ⟨?_, ?_, ?_, ?_, ?_, ?_, ?_⟩
  · intro hr
    dsimp only
    rw [List.length_set]
    exact hWF.rootRange hr
  · intro rn hr hgrn
    dsimp only at hgrn
    by_cases hri : t.root = i
    · rw [hri, hqi] at hgrn
      have hrn := Option.some.inj hgrn
      rw [← hrn]
      exact hWF.rootP nd hr (by rw [hri]; exact hg)
    · rw [hq t.root hri] at hgrn
      exact hWF.rootP rn hr hgrn
  · intro q ndq hgq
    dsimp only at hgq
    by_cases hqi2 : q = i
    · rw [hqi2, hqi] at hgq
      rw [← Option.some.inj hgq]
      exact hWF.chLen8 i nd hg
    · rw [hq q hqi2] at hgq
      exact hWF.chLen8 q ndq hgq
  · intro q ndq hgq hall
    dsimp only at hgq
    by_cases hqi2 : q = i
    · rw [hqi2, hqi] at hgq
      rw [← Option.some.inj hgq]
      rw [← Option.some.inj hgq] at hall
      exact hWF.allNull i nd hg hall
    · rw [hq q hqi2] at hgq
      exact hWF.allNull q ndq hgq hall
  · intro q ndq j hgq hj hne
    dsimp only at hgq
    by_cases hqi2 : q = i
    · rw [hqi2, hqi] at hgq
      rw [← Option.some.inj hgq] at hne ⊢
      exact hWF.slotLen i nd j hg hj hne
    · rw [hq q hqi2] at hgq
      exact hWF.slotLen q ndq j hgq hj hne
  · intro q ndq j hgq hj hne
    dsimp only at hgq ⊢
    by_cases hqi2 : q = i
    · rw [hqi2, hqi] at hgq
      rw [← Option.some.inj hgq] at hne ⊢
      exact hWF.slotBig i nd j hg hj hne
    · rw [hq q hqi2] at hgq
      exact hWF.slotBig q ndq j hgq hj hne
  · intro q ndq hgq hp
    dsimp only at hgq ⊢
    by_cases hqi2 : q = i
    · rw [hqi2, hqi] at hgq
      have hnd := Option.some.inj hgq
      have hpar : ndq.parent = nd.parent := by rw [← hnd]
      obtain ⟨pn, hgp, j, hj, hsl⟩ := hWF.backlink i nd hg
        (by rw [hpar] at hp; exact hp)
      by_cases hpi : nd.parent = i
      · refine ⟨{ nd with entities := l }, ?_, j, hj, ?_⟩
        · have hpp : ndq.parent = i := by rw [hpar, hpi]
          rw [hpp]
          exact hqi
        · rw [hpi, hg] at hgp
          have hpn := Option.some.inj hgp
          rw [← hpn] at hsl
          rw [hqi2]
          exact hsl
      · refine ⟨pn, ?_, j, hj, by rw [hqi2]; exact hsl⟩
        rw [hpar, hq nd.parent hpi]
        exact hgp
    · rw [hq q hqi2] at hgq
      obtain ⟨pn, hgp, j, hj, hsl⟩ := hWF.backlink q ndq hgq hp
      by_cases hpi : ndq.parent = i
      · refine ⟨{ nd with entities := l }, by rw [hpi]; exact hqi, j, hj, ?_⟩
        rw [hpi, hg] at hgp
        have hpn := Option.some.inj hgp
        rw [← hpn] at hsl
        exact hsl
      · exact ⟨pn, by rw [hq ndq.parent hpi]; exact hgp, j, hj, hsl⟩

theorem framePres_set_entities (t : Octree) (i : ℕ) (nd : OctreeNode)
    (l : List OctreeEntity) (hg : t.nodes.get? i = some nd) :
    Octree.framePres t
      { t with nodes := t.nodes.set i { nd with entities := l } } := by
  have hilt : i < t.nodes.length := by
    by_contra hge
    rw [List.get?_eq_none.mpr (Nat.le_of_not_lt hge)] at hg
    exact absurd hg (by simp)
  intro q nd0 hgq
  by_cases hqi2 : q = i
  · rw [hqi2, hg] at hgq
    have h0 := Option.some.inj hgq
    refine ⟨{ nd with entities := l }, ?_, ?_, ?_, ?_⟩
    · dsimp only
      rw [hqi2]
      exact get?_set_lt _ _ i hilt
    · rw [← h0]
    · intro j hj
      rw [← h0]
      rfl
    · intro hh
      rw [← h0] at hh
      exact hh
  · refine ⟨nd0, ?_, rfl, fun _ _ => rfl, fun hh => hh⟩
    dsimp only
    rw [get?_set_of_ne _ _ i q (fun hh => hqi2 hh.symm)]
    exact hgq
